import Mathlib

/-!
Verification development for the Social-Network-Algorithms repository
(HW1/q1.py and HW1/q2.py): a Watts-Strogatz small-world generator and the
degree / betweenness / closeness centrality computations plus the average
clustering coefficient.

The Python code manipulates `networkx.Graph` objects.  We embed such a
graph as a list of nodes (in insertion order) plus a list of edge records
(in insertion order); an unordered edge {a,b} is stored once, with the
orientation of its first insertion, and `add_edge` is a no-op on an edge
that is already present, exactly as in `networkx`.
-/

namespace SNA

/-- In-memory undirected graph, mirroring how `networkx.Graph` is used by
the repository: `nodes` in insertion order, `edges` in insertion order,
each unordered edge stored once with the orientation of its first
insertion. -/
structure Graph where
  nodes : List Nat
  edges : List (Nat × Nat)
deriving Repr, DecidableEq

def emptyGraph : Graph := ⟨[], []⟩

/-- `networkx` `G.add_node(i)`: appends `i` unless already present. -/
def addNode (G : Graph) (i : Nat) : Graph :=
  if i ∈ G.nodes then G else ⟨G.nodes ++ [i], G.edges⟩

/-- `networkx` `G.has_edge(a, b)`: the unordered pair {a,b} is stored
under either orientation. -/
def hasEdge (G : Graph) (a b : Nat) : Bool :=
  G.edges.any (fun e => (e.1 == a && e.2 == b) || (e.1 == b && e.2 == a))

/-- `networkx` `G.add_edge(a, b)`: ensures both endpoints are nodes; the
edge is appended only if the unordered pair is not yet present. -/
def addEdge (G : Graph) (a b : Nat) : Graph :=
  let G' := addNode (addNode G a) b
  if hasEdge G a b then G' else ⟨G'.nodes, G'.edges ++ [(a, b)]⟩

/-- `networkx` `G.remove_edge(a, b)` (this code base only ever removes
edges it just observed to be present). -/
def removeEdge (G : Graph) (a b : Nat) : Graph :=
  ⟨G.nodes, G.edges.filter (fun e => !((e.1 == a && e.2 == b) || (e.1 == b && e.2 == a)))⟩

/-- `networkx` adjacency `G.neighbors(v)`: neighbors of `v` in
edge-insertion order. -/
def neighbors (G : Graph) (v : Nat) : List Nat :=
  G.edges.filterMap (fun e => if e.1 = v then some e.2 else if e.2 = v then some e.1 else none)

/-- `networkx` `G.degree(v)` for the loop-free graphs this program
builds. -/
def degree (G : Graph) (v : Nat) : Nat := (neighbors G v).length

/-- Two edge records denote the same unordered edge. -/
def sameEdge (e f : Nat × Nat) : Prop := e = f ∨ e = (f.2, f.1)

instance (e f : Nat × Nat) : Decidable (sameEdge e f) := by
  unfold sameEdge; exact inferInstance

/-- Well-formedness invariants `networkx.Graph` maintains for the graphs
this program builds: distinct nodes, every edge joins two distinct
existing nodes, and no unordered pair is stored twice. -/
def WF (G : Graph) : Prop :=
  G.nodes.Nodup ∧
  (∀ e ∈ G.edges, e.1 ∈ G.nodes ∧ e.2 ∈ G.nodes ∧ e.1 ≠ e.2) ∧
  List.Pairwise (fun e f => ¬ sameEdge e f) G.edges

instance (G : Graph) : Decidable (WF G) := by
  unfold WF; exact inferInstance

/-! ## The Watts-Strogatz generator (HW1/q1.py, `watts_strogatz_model`) -/

/-- Error taxonomy of `watts_strogatz_model`'s input validation: the
source raises `ValueError` with one of three messages ("k must be even",
"k must be less than n", "p must be between 0 and 1"); the design spec
calls this class of failures `InvalidParameter`. -/
inductive WSError where
  | kOdd
  | kNotLtN
  | pOutOfRange
deriving Repr, DecidableEq

/-- Step 1 of `watts_strogatz_model` (q1.py lines 36-49): add nodes
`0..n-1`, then for each node `i` and offset `j ∈ [1, k/2]` add the right
neighbor edge `(i, (i+j) % n)` and the left neighbor edge
`(i, (i-j) % n)`.  Python's `%` is nonnegative, and for `1 ≤ j ≤ n` one
has `(i - j) % n = (i + (n - j)) % n`, which is how the left neighbor is
written here over `Nat`. -/
def ringLattice (n k : Nat) : Graph :=
  let G0 := (List.range n).foldl (fun G i => addNode G i) emptyGraph
  (List.range n).foldl (fun G i =>
    (List.range' 1 (k / 2)).foldl (fun G j =>
      addEdge (addEdge G i ((i + j) % n)) i ((i + (n - j)) % n)) G) G0

/-- `random.choice(lst)` modelled on a single draw `r` from the stream:
pick index `⌊r * len⌋ % len` (for `r ∈ [0,1)` this is `⌊r * len⌋`). -/
def choiceIdx (r : ℚ) (len : Nat) : Nat := (Int.toNat ⌊r * (len : ℚ)⌋) % len

/-- One iteration of the rewiring loop (q1.py lines 54-79) on state
`(G, c)`, `c` being the position in the random stream `σ`.  An edge
whose stored record has `i > j` is skipped before any draw.  Otherwise
one draw is consumed for the `random.random() < p` test; on success the
candidate targets are all nodes other than `i` not currently adjacent to
`i`, and if any exist a second draw picks one, edge `(i,j)` is removed
and edge `(i, target)` added.  The source's line 76 carries one extra
space of indentation (an `IndentationError` for Python as written); the
`if len(possible_targets) > 0` guard is placed here at its only runnable
position, inside the `random.random() < p` branch, which is also the
placement the design spec §4.1 describes. -/
def rewireStep (n : Nat) (p : ℚ) (σ : Nat → ℚ) (st : Graph × Nat) (e : Nat × Nat) :
    Graph × Nat :=
  if e.2 < e.1 then st
  else if σ st.2 < p then
    let cands := (List.range n).filter (fun t => !(t == e.1) && !(hasEdge st.1 e.1 t))
    if cands = [] then (st.1, st.2 + 1)
    else
      let t := cands.getD (choiceIdx (σ (st.2 + 1)) cands.length) 0
      (addEdge (removeEdge st.1 e.1 e.2) e.1 t, st.2 + 2)
  else (st.1, st.2 + 1)

/-- `watts_strogatz_model(n, k, p)` (q1.py): validate, build the ring
lattice, then run the rewiring pass over a snapshot of the lattice's edge
list.  The random source is the explicit stream `σ` of `random.random()`
values (each in `[0,1)` in a real Python run). -/
def watts_strogatz_model (n k : Nat) (p : ℚ) (σ : Nat → ℚ) : Except WSError Graph :=
  if k % 2 ≠ 0 then .error .kOdd
  else if n ≤ k then .error .kNotLtN
  else if ¬ (0 ≤ p ∧ p ≤ 1) then .error .pOutOfRange
  else
    let G := ringLattice n k
    .ok (G.edges.foldl (rewireStep n p σ) (G, 0)).1

/-! ## Auxiliary forms of the lattice construction -/

/-- Fold `add_edge` over a list of offered pairs. -/
def addEdges (G : Graph) (L : List (Nat × Nat)) : Graph :=
  L.foldl (fun G e => addEdge G e.1 e.2) G

/-- The pairs offered to `add_edge` by the ring-lattice double loop, in
program order. -/
def latticeOffers (n k : Nat) : List (Nat × Nat) :=
  (List.range n).flatMap (fun i => (List.range' 1 (k / 2)).flatMap (fun j =>
    [(i, (i + j) % n), (i, (i + (n - j)) % n)]))

/-- The ring-lattice edge relation of the spec: {a,b} is a lattice edge
iff one endpoint is the other shifted by some offset `j ∈ [1, k/2]`
modulo `n`. -/
def inLattice (n k a b : Nat) : Prop :=
  ∃ j, 1 ≤ j ∧ j ≤ k / 2 ∧ ((a < n ∧ (a + j) % n = b) ∨ (b < n ∧ (b + j) % n = a))

/-! ## Breadth-first shortest paths

The centrality code calls `networkx`'s `shortest_path_length` and
`all_pairs_shortest_path`, whose documented semantics for unweighted
graphs is breadth-first search from the source, keeping for every
reachable node the first-discovered (hence shortest) path.  The following
is that BFS, made total with fuel `|nodes|`. -/

/-- Expand one frontier entry: append each not-yet-visited neighbor `w`
(in adjacency order) to the discoveries, with path `pth ++ [w]`. -/
def bfsExpandNbrs (pth : List Nat) :
    List Nat → List Nat → List (Nat × List Nat) → List (Nat × List Nat) × List Nat
  | [], visited, acc => (acc, visited)
  | w :: ws, visited, acc =>
    if w ∈ visited then bfsExpandNbrs pth ws visited acc
    else bfsExpandNbrs pth ws (w :: visited) (acc ++ [(w, pth ++ [w])])

/-- Expand a whole frontier layer, in frontier order. -/
def bfsLayer (G : Graph) :
    List (Nat × List Nat) → List Nat → List (Nat × List Nat) × List Nat
  | [], visited => ([], visited)
  | (v, pth) :: fr, visited =>
    let acc1 := bfsExpandNbrs pth (neighbors G v) visited []
    let acc2 := bfsLayer G fr acc1.2
    (acc1.1 ++ acc2.1, acc2.2)

/-- Emit the BFS layers; `fuel = |nodes|` always suffices. -/
def bfsAux (G : Graph) : Nat → List (Nat × List Nat) → List Nat → List (Nat × List Nat)
  | 0, frontier, _ => frontier
  | fuel + 1, frontier, visited =>
    let layer := bfsLayer G frontier visited
    frontier ++ bfsAux G fuel layer.1 layer.2

/-- Single-source BFS shortest paths: each reachable node paired with one
shortest path from `s`, in discovery order (the semantics of
`networkx.single_source_shortest_path`). -/
def bfsPaths (G : Graph) (s : Nat) : List (Nat × List Nat) :=
  bfsAux G G.nodes.length [(s, [s])] [s]

/-- The canonical shortest path from `s` to `t`, when one exists. -/
def shortestPath (G : Graph) (s t : Nat) : Option (List Nat) :=
  ((bfsPaths G s).find? (fun vp => vp.1 == t)).map (fun vp => vp.2)

/-- `networkx.shortest_path_length(G, s, t)`: hop count of the canonical
path; `none` plays the raised `NetworkXNoPath`. -/
def shortestPathLen (G : Graph) (s t : Nat) : Option Nat :=
  (shortestPath G s t).map (fun pth => pth.length - 1)

/-- Walks of the graph: nonempty node lists whose consecutive nodes are
joined by an edge. -/
def IsWalk (G : Graph) : List Nat → Prop
  | [] => False
  | [_] => True
  | a :: b :: rest => hasEdge G a b = true ∧ IsWalk G (b :: rest)

/-! ## Centrality computations (HW1/q2.py) -/

/-- `compute_degree_centrality` (q2.py lines 4-22): each node maps to its
degree, divided by `n - 1` when `normalized`.  (For `normalized` with a
single node the source divides by zero, `ZeroDivisionError`; the claims
treated here only concern `normalized = false`.) -/
def compute_degree_centrality (G : Graph) (normalized : Bool) : List (Nat × ℚ) :=
  G.nodes.map (fun v =>
    (v, if normalized then (degree G v : ℚ) / ((G.nodes.length : ℚ) - 1)
        else (degree G v : ℚ)))

/-- `p[1:-1]`: the nodes strictly between the endpoints of a path. -/
def interior (pth : List Nat) : List Nat := (pth.drop 1).dropLast

/-- Increment the counter of `v` in an association list (Python
`dict[v] += 1`; in the program `v` is always a key, having been
initialized to 0 for every node). -/
def incrCounter (d : List (Nat × Nat)) (v : Nat) : List (Nat × Nat) :=
  d.map (fun xc => if xc.1 = v then (xc.1, xc.2 + 1) else xc)

/-- The body of the double loop of `compute_betweenness_centrality`
(q2.py lines 43-54) for one ordered pair: skip equal pairs, look up the
canonical shortest path (`KeyError`, i.e. `none`, contributes nothing),
and increment the counter of every strictly-interior node. -/
def processPair (G : Graph) (d : List (Nat × Nat)) (st : Nat × Nat) : List (Nat × Nat) :=
  if st.1 ≠ st.2 then
    match shortestPath G st.1 st.2 with
    | some pth => (interior pth).foldl incrCounter d
    | none => d
  else d

/-- The counting phase of `compute_betweenness_centrality` (q2.py lines
35-54): initialize every node's counter to 0, then run `processPair`
over every ordered pair of the double node loop. -/
def betweennessCounts (G : Graph) : List (Nat × Nat) :=
  G.nodes.foldl (fun d s => G.nodes.foldl (fun d t => processPair G d (s, t)) d)
    (G.nodes.map (fun v => (v, 0)))

/-- What one ordered pair adds to the counter of `v`. -/
def pairContrib (G : Graph) (v : Nat) (st : Nat × Nat) : Nat :=
  if st.1 ≠ st.2 then
    match shortestPath G st.1 st.2 with
    | some pth => (interior pth).count v
    | none => 0
  else 0

/-- A walk of `G` from `s` to `t`. -/
def WalkFrom (G : Graph) (s t : Nat) (q : List Nat) : Prop :=
  IsWalk G q ∧ q.head? = some s ∧ q.getLast? = some t

/-- BFS invariant: every visited node is either still on the frontier or
has all its neighbors visited. -/
def ClosedInv (G : Graph) (visited : List Nat) (fr : List (Nat × List Nat)) : Prop :=
  ∀ v ∈ visited, (∃ pth, (v, pth) ∈ fr) ∨ (∀ w ∈ neighbors G v, w ∈ visited)

/-- `compute_betweenness_centrality` (q2.py lines 24-64): the counts,
scaled by `1/((n-1)(n-2))` when `normalized` and `n > 2`. -/
def compute_betweenness_centrality (G : Graph) (normalized : Bool) : List (Nat × ℚ) :=
  if normalized ∧ G.nodes.length > 2 then
    (betweennessCounts G).map (fun vc => (vc.1, (vc.2 : ℚ) *
      (1 / (((G.nodes.length : ℚ) - 1) * ((G.nodes.length : ℚ) - 2)))))
  else
    (betweennessCounts G).map (fun vc => (vc.1, (vc.2 : ℚ)))

/-- The ordered pairs `(s, t)` enumerated by the double loop of the
betweenness computation, in program order. -/
def orderedPairs (G : Graph) : List (Nat × Nat) :=
  G.nodes.flatMap (fun s => G.nodes.map (fun t => (s, t)))

/-- The number of ordered pairs of distinct nodes whose canonical
shortest path has `v` strictly between its endpoints. -/
def betweennessSpecCount (G : Graph) (v : Nat) : Nat :=
  (orderedPairs G).countP (fun st =>
    decide (st.1 ≠ st.2) &&
      (match shortestPath G st.1 st.2 with
       | some pth => decide (v ∈ interior pth)
       | none => false))

/-- One iteration of the closeness-centrality inner loop (q2.py lines
78-91), mirroring the source statement for statement.  The state carries
the running distance sum (`none` plays the float `inf`) and the current
dictionary entry of this node; `c` is the numerator `(n-1)` or `1`.
The source's indentation places the finite-positive check and the
assignment of lines 86-91 INSIDE the target loop, so the entry is
(re)assigned after every target for which the running sum is finite and
positive, and a later infinite sum leaves the stale entry in place. -/
def closenessStep (G : Graph) (c : ℚ) (u : Nat) (st : Option Nat × Option ℚ) (t : Nat) :
    Option Nat × Option ℚ :=
  let sum' := if t = u then st.1 else
    match st.1, shortestPathLen G u t with
    | some s, some d => some (s + d)
    | _, _ => none
  let entry' := match sum' with
    | some s => if 0 < s then some (c / (s : ℚ)) else st.2
    | none => st.2
  (sum', entry')

/-- One node's closeness-centrality computation (q2.py lines 77-91): run
the inner loop over all targets in node order; the numerator is `n - 1`
when normalized and `1` otherwise, as in lines 87-90. -/
def closenessEntry (G : Graph) (normalized : Bool) (u : Nat) : Option ℚ :=
  (G.nodes.foldl
    (closenessStep G (if normalized then ((G.nodes.length - 1 : Nat) : ℚ) else 1) u)
    (some 0, none)).2

/-- The targets processed while the running sum is still finite: the
longest prefix of the node order whose members are `u` itself or
reachable from `u`. -/
def reachPrefix (G : Graph) (u : Nat) : List Nat :=
  G.nodes.takeWhile (fun t => t == u || (shortestPathLen G u t).isSome)

/-- The distance sum the stale dictionary entry of `u` was computed
from: the distances from `u` to the non-`u` targets of `reachPrefix`. -/
def closeSum (G : Graph) (u : Nat) : Nat :=
  (((reachPrefix G u).filter (fun t => !(t == u))).map
    (fun t => (shortestPathLen G u t).getD 0)).sum

/-- `compute_closeness_centrality` (q2.py lines 66-92): the returned
dictionary as an association list; a node is a key iff its entry was
assigned at least once during its inner loop. -/
def compute_closeness_centrality (G : Graph) (normalized : Bool) : List (Nat × ℚ) :=
  G.nodes.filterMap (fun u => (closenessEntry G normalized u).map (fun q => (u, q)))

/-! ## Clustering coefficient (HW1/q1.py, `compute_clustering_coefficient`) -/

/-- The ordered index pairs `(l[i], l[j])`, `i < j`, in the double-loop
order of q1.py lines 117-120. -/
def pairsOf : List Nat → List (Nat × Nat)
  | [] => []
  | x :: xs => xs.map (fun y => (x, y)) ++ pairsOf xs

/-- One node's local clustering coefficient exactly as computed by the
source (q1.py lines 105-127): 0 for degree < 2, else the count of
adjacent neighbor pairs over `k*(k-1)/2`. -/
def localCC (G : Graph) (v : Nat) : ℚ :=
  let nbrs := neighbors G v
  if nbrs.length < 2 then 0
  else
    ((pairsOf nbrs).countP (fun ab => hasEdge G ab.1 ab.2) : ℚ) /
      ((nbrs.length : ℚ) * ((nbrs.length : ℚ) - 1) / 2)

/-- `compute_clustering_coefficient` (q1.py lines 83-137): the mean of
the per-node coefficients, 0 for the empty graph. -/
def compute_clustering_coefficient (G : Graph) : ℚ :=
  if (G.nodes.map (localCC G)).length > 0 then
    (G.nodes.map (localCC G)).sum / ((G.nodes.map (localCC G)).length : ℚ)
  else 0

/-- The spec's count of edges among a node's neighbor set: unordered
pairs of distinct neighbors, canonicalized by `<`, joined by an edge. -/
def numEdgesAmong (G : Graph) (v : Nat) : Nat :=
  (((neighbors G v).toFinset ×ˢ (neighbors G v).toFinset).filter
    (fun ab => ab.1 < ab.2 ∧ hasEdge G ab.1 ab.2 = true)).card

/-- The spec's local clustering coefficient of a node. -/
def localCCSpec (G : Graph) (v : Nat) : ℚ :=
  if degree G v < 2 then 0
  else (numEdgesAmong G v : ℚ) /
    ((degree G v : ℚ) * ((degree G v : ℚ) - 1) / 2)

/-! ## Concrete example graphs used by witnesses and counterexamples -/

/-- Nodes 0,1,2 with the single edge {0,1}: node 2 is isolated. -/
def exG3 : Graph := ⟨[0, 1, 2], [(0, 1)]⟩

/-- A path component {0,1,2} (edges {0,1},{1,2}) and a second component
{3,4} (edge {3,4}), with node insertion order 0,1,3,2,4 interleaving the
two components. -/
def exG5 : Graph := ⟨[0, 1, 3, 2, 4], [(0, 1), (1, 2), (3, 4)]⟩

/-- The path 0-1-2 on its own. -/
def exH3 : Graph := ⟨[0, 1, 2], [(0, 1), (1, 2)]⟩

/-- The path graph 0-1-2-3-4. -/
def exP5 : Graph := ⟨[0, 1, 2, 3, 4], [(0, 1), (1, 2), (2, 3), (3, 4)]⟩

/-- A triangle 0,1,2 with a pendant node 3 attached to 2. -/
def exT4 : Graph := ⟨[0, 1, 2, 3], [(0, 1), (1, 2), (0, 2), (2, 3)]⟩

/-! ## Basic graph lemmas -/

lemma sameEdge_refl (e : Nat × Nat) : sameEdge e e := Or.inl rfl

lemma sameEdge_symm {e f : Nat × Nat} (h : sameEdge e f) : sameEdge f e := by
  rcases e with ⟨a, b⟩; rcases f with ⟨c, d⟩
  rcases h with h | h <;> simp_all [sameEdge, Prod.ext_iff]

lemma sameEdge_trans {e f g : Nat × Nat} (h1 : sameEdge e f) (h2 : sameEdge f g) :
    sameEdge e g := by
  rcases e with ⟨a, b⟩; rcases f with ⟨c, d⟩; rcases g with ⟨x, y⟩
  rcases h1 with h1 | h1 <;> rcases h2 with h2 | h2 <;>
    simp_all [sameEdge, Prod.ext_iff]

lemma sameEdge_swap_left {a b : Nat} {f : Nat × Nat} :
    sameEdge (a, b) f ↔ sameEdge (b, a) f := by
  rcases f with ⟨c, d⟩
  simp [sameEdge, Prod.ext_iff]; tauto

lemma hasEdge_iff {G : Graph} {a b : Nat} :
    hasEdge G a b = true ↔ ∃ r ∈ G.edges, sameEdge (a, b) r := by
  unfold hasEdge
  simp only [List.any_eq_true, Bool.or_eq_true, Bool.and_eq_true, beq_iff_eq]
  constructor
  · rintro ⟨r, hr, ⟨h1, h2⟩ | ⟨h1, h2⟩⟩
    · exact ⟨r, hr, Or.inl (by simp [Prod.ext_iff, h1.symm, h2.symm])⟩
    · exact ⟨r, hr, Or.inr (by simp [Prod.ext_iff, h1.symm, h2.symm])⟩
  · rintro ⟨r, hr, h | h⟩
    · exact ⟨r, hr, Or.inl ⟨(congrArg Prod.fst h).symm, (congrArg Prod.snd h).symm⟩⟩
    · exact ⟨r, hr, Or.inr ⟨(congrArg Prod.snd h).symm, (congrArg Prod.fst h).symm⟩⟩

lemma hasEdge_comm {G : Graph} {a b : Nat} : hasEdge G a b = hasEdge G b a := by
  rcases h1 : hasEdge G a b with _ | _ <;> rcases h2 : hasEdge G b a with _ | _ <;> try rfl
  · rw [hasEdge_iff] at h2
    obtain ⟨r, hr, hs⟩ := h2
    have : hasEdge G a b = true := hasEdge_iff.mpr ⟨r, hr, sameEdge_swap_left.mpr hs⟩
    rw [h1] at this; cases this
  · rw [hasEdge_iff] at h1
    obtain ⟨r, hr, hs⟩ := h1
    have : hasEdge G b a = true := hasEdge_iff.mpr ⟨r, hr, sameEdge_swap_left.mpr hs⟩
    rw [h2] at this; cases this

lemma addNode_edges (G : Graph) (i : Nat) : (addNode G i).edges = G.edges := by
  unfold addNode; split <;> rfl

lemma addNode_nodes_of_mem {G : Graph} {i : Nat} (h : i ∈ G.nodes) :
    (addNode G i).nodes = G.nodes := by
  unfold addNode; simp [h]

lemma mem_addNode_nodes {G : Graph} {i x : Nat} :
    x ∈ (addNode G i).nodes ↔ x ∈ G.nodes ∨ x = i := by
  unfold addNode
  split
  · constructor
    · exact fun h => Or.inl h
    · rintro (h | h)
      · exact h
      · simp_all
  · simp

lemma addEdge_nodes {G : Graph} {a b : Nat} (ha : a ∈ G.nodes) (hb : b ∈ G.nodes) :
    (addEdge G a b).nodes = G.nodes := by
  unfold addEdge
  have h1 : (addNode G a).nodes = G.nodes := addNode_nodes_of_mem ha
  have h2 : (addNode (addNode G a) b).nodes = G.nodes := by
    rw [addNode_nodes_of_mem (by rw [h1]; exact hb), h1]
  split <;> simp [h2]

lemma addEdge_edges (G : Graph) (a b : Nat) :
    (addEdge G a b).edges = if hasEdge G a b then G.edges else G.edges ++ [(a, b)] := by
  unfold addEdge
  split <;> simp_all [addNode_edges]

lemma hasEdge_addEdge {G : Graph} {a b x y : Nat} :
    hasEdge (addEdge G a b) x y = true ↔
      hasEdge G x y = true ∨ sameEdge (x, y) (a, b) := by
  rcases h : hasEdge G a b with _ | _
  · have he : (addEdge G a b).edges = G.edges ++ [(a, b)] := by
      rw [addEdge_edges]; simp [h]
    rw [hasEdge_iff, hasEdge_iff, he]
    simp only [List.mem_append, List.mem_singleton]
    constructor
    · rintro ⟨r, hr | hr, hs⟩
      · exact Or.inl ⟨r, hr, hs⟩
      · exact Or.inr (hr ▸ hs)
    · rintro (⟨r, hr, hs⟩ | hs)
      · exact ⟨r, Or.inl hr, hs⟩
      · exact ⟨(a, b), Or.inr rfl, hs⟩
  · have he : (addEdge G a b).edges = G.edges := by
      rw [addEdge_edges]; simp [h]
    rw [hasEdge_iff, hasEdge_iff, he]
    constructor
    · rintro ⟨r, hr, hs⟩; exact Or.inl ⟨r, hr, hs⟩
    · rintro (⟨r, hr, hs⟩ | hs)
      · exact ⟨r, hr, hs⟩
      · obtain ⟨r, hr, hs'⟩ := hasEdge_iff.mp h
        exact ⟨r, hr, sameEdge_trans hs hs'⟩

lemma removeEdge_nodes (G : Graph) (a b : Nat) : (removeEdge G a b).nodes = G.nodes := rfl

lemma removeEdge_edges_mem {G : Graph} {a b : Nat} {r : Nat × Nat} :
    r ∈ (removeEdge G a b).edges ↔ r ∈ G.edges ∧ ¬ sameEdge r (a, b) := by
  unfold removeEdge
  simp only [List.mem_filter, Bool.not_eq_eq_eq_not, Bool.not_true, Bool.or_eq_false_iff,
    Bool.and_eq_false_imp]
  constructor
  · rintro ⟨hr, hcond⟩
    refine ⟨hr, ?_⟩
    intro hs
    rcases r with ⟨x, y⟩
    rcases hs with hs | hs
    · have hx : x = a := congrArg Prod.fst hs
      have hy : y = b := congrArg Prod.snd hs
      simp [hx, hy] at hcond
    · have hx : x = b := congrArg Prod.fst hs
      have hy : y = a := congrArg Prod.snd hs
      simp [hx, hy] at hcond
  · rintro ⟨hr, hs⟩
    refine ⟨hr, ?_⟩
    rcases r with ⟨x, y⟩
    simp only [Bool.and_eq_false_iff, Bool.or_eq_false_iff]
    constructor
    · intro hx
      have hx' : x = a := by simpa using hx
      apply decide_eq_false
      intro hy
      exact hs (Or.inl (by simp [hx', hy]))
    · intro hx
      have hx' : x = b := by simpa using hx
      apply decide_eq_false
      intro hy
      exact hs (Or.inr (by simp [hx', hy]))

lemma hasEdge_removeEdge {G : Graph} {a b x y : Nat} :
    hasEdge (removeEdge G a b) x y = true ↔
      hasEdge G x y = true ∧ ¬ sameEdge (x, y) (a, b) := by
  rw [hasEdge_iff, hasEdge_iff]
  constructor
  · rintro ⟨r, hr, hs⟩
    rw [removeEdge_edges_mem] at hr
    refine ⟨⟨r, hr.1, hs⟩, ?_⟩
    intro hxy
    exact hr.2 (sameEdge_trans (sameEdge_symm hs) hxy)
  · rintro ⟨⟨r, hr, hs⟩, hne⟩
    refine ⟨r, removeEdge_edges_mem.mpr ⟨hr, ?_⟩, hs⟩
    intro hrab
    exact hne (sameEdge_trans hs hrab)

/-! ## Well-formedness preservation -/

lemma WF_addEdge {G : Graph} {a b : Nat} (hwf : WF G) (ha : a ∈ G.nodes)
    (hb : b ∈ G.nodes) (hab : a ≠ b) : WF (addEdge G a b) := by
  obtain ⟨hn, hend, hpw⟩ := hwf
  have hnodes : (addEdge G a b).nodes = G.nodes := addEdge_nodes ha hb
  rcases h : hasEdge G a b with _ | _
  · have he : (addEdge G a b).edges = G.edges ++ [(a, b)] := by
      rw [addEdge_edges]; simp [h]
    refine ⟨by rw [hnodes]; exact hn, ?_, ?_⟩
    · rw [he, hnodes]
      intro e hee
      rcases List.mem_append.mp hee with hmem | hmem
      · exact hend e hmem
      · rcases List.mem_singleton.mp hmem with rfl
        exact ⟨ha, hb, hab⟩
    · rw [he]
      rw [List.pairwise_append]
      refine ⟨hpw, List.pairwise_singleton _ _, ?_⟩
      intro e hmem f hf
      rcases List.mem_singleton.mp hf with rfl
      intro hs
      have : hasEdge G a b = true := hasEdge_iff.mpr ⟨e, hmem, sameEdge_symm hs⟩
      rw [h] at this; cases this
  · have he : (addEdge G a b).edges = G.edges := by rw [addEdge_edges]; simp [h]
    exact ⟨by rw [hnodes]; exact hn, by rw [he, hnodes]; exact hend, by rw [he]; exact hpw⟩

lemma WF_removeEdge {G : Graph} (hwf : WF G) (a b : Nat) : WF (removeEdge G a b) := by
  obtain ⟨hn, hend, hpw⟩ := hwf
  refine ⟨hn, ?_, ?_⟩
  · intro e he
    exact hend e (removeEdge_edges_mem.mp he).1
  · exact List.Pairwise.sublist (List.filter_sublist _) hpw

lemma filter_not_length (es : List (Nat × Nat)) (p : Nat × Nat → Bool) :
    (es.filter (fun r => !(p r))).length + es.countP p = es.length := by
  induction es with
  | nil => simp
  | cons e es ih =>
    rcases h : p e with _ | _ <;>
      simp [List.filter_cons, List.countP_cons, h] <;> omega

lemma countP_sameEdge_eq_one {es : List (Nat × Nat)} {a b : Nat}
    (hpw : List.Pairwise (fun e f => ¬ sameEdge e f) es)
    (hmem : ∃ r ∈ es, sameEdge (a, b) r) :
    es.countP (fun r => decide (sameEdge (a, b) r)) = 1 := by
  induction es with
  | nil => simp at hmem
  | cons e es ih =>
    rcases List.pairwise_cons.mp hpw with ⟨hhead, htail⟩
    by_cases hs : sameEdge (a, b) e
    · have hzero : es.countP (fun r => decide (sameEdge (a, b) r)) = 0 := by
        rw [List.countP_eq_zero]
        intro r hr
        simp only [decide_eq_true_eq]
        intro hr'
        exact hhead r hr (sameEdge_trans (sameEdge_symm hs) hr')
      simp [List.countP_cons, hs, hzero]
    · have hmem' : ∃ r ∈ es, sameEdge (a, b) r := by
        rcases hmem with ⟨r, hr, hr'⟩
        rcases List.mem_cons.mp hr with rfl | hr
        · exact absurd hr' hs
        · exact ⟨r, hr, hr'⟩
      simp [List.countP_cons, hs, ih htail hmem']

lemma removeEdge_length {G : Graph} (hwf : WF G) {a b : Nat}
    (h : hasEdge G a b = true) :
    (removeEdge G a b).edges.length + 1 = G.edges.length := by
  have hb : ∀ r : Nat × Nat,
      ((r.1 == a && r.2 == b) || (r.1 == b && r.2 == a)) =
        decide (sameEdge (a, b) r) := by
    intro r
    rcases hd : decide (sameEdge (a, b) r) with _ | _
    · have : ¬ sameEdge (a, b) r := of_decide_eq_false hd
      rcases r with ⟨x, y⟩
      simp only [sameEdge, Prod.ext_iff, not_or] at this
      simp only [Bool.or_eq_false_iff, Bool.and_eq_false_iff]
      constructor
      · by_cases hx : x = a
        · right; apply beq_eq_false_iff_ne.mpr
          intro hy; exact this.1 ⟨hx.symm, hy.symm⟩
        · left; exact beq_eq_false_iff_ne.mpr hx
      · by_cases hx : x = b
        · right; apply beq_eq_false_iff_ne.mpr
          intro hy; exact this.2 ⟨hy.symm, hx.symm⟩
        · left; exact beq_eq_false_iff_ne.mpr hx
    · have hs : sameEdge (a, b) r := of_decide_eq_true hd
      rcases r with ⟨x, y⟩
      rcases hs with hs | hs
      · rcases Prod.mk.injEq .. ▸ hs with ⟨h1, h2⟩
        simp [h1, h2]
      · rcases Prod.mk.injEq .. ▸ hs with ⟨h1, h2⟩
        simp [h1, h2]
  have hcount : G.edges.countP (fun r => decide (sameEdge (a, b) r)) = 1 :=
    countP_sameEdge_eq_one hwf.2.2 (hasEdge_iff.mp h)
  have := filter_not_length G.edges (fun r => decide (sameEdge (a, b) r))
  rw [hcount] at this
  unfold removeEdge
  simp only []
  calc (G.edges.filter fun e => !((e.1 == a && e.2 == b) || (e.1 == b && e.2 == a))).length + 1
      = (G.edges.filter fun e => !(decide (sameEdge (a, b) e))).length + 1 := by
        congr 1
        apply congrArg
        apply List.filter_congr
        intro r _
        rw [hb r]
    _ = G.edges.length := this

lemma addEdge_length_of_not {G : Graph} {a b : Nat} (h : hasEdge G a b = false) :
    (addEdge G a b).edges.length = G.edges.length + 1 := by
  rw [addEdge_edges]; simp [h]

/-! ## Neighbors and degree -/

lemma mem_neighbors {G : Graph} {v x : Nat} :
    x ∈ neighbors G v ↔ (v, x) ∈ G.edges ∨ ((x, v) ∈ G.edges ∧ x ≠ v) := by
  unfold neighbors
  rw [List.mem_filterMap]
  constructor
  · rintro ⟨e, he, hfe⟩
    by_cases h1 : e.1 = v
    · rw [if_pos h1] at hfe
      left
      have : e = (v, x) := by
        rcases e with ⟨p, q⟩
        simp_all
      exact this ▸ he
    · rw [if_neg h1] at hfe
      by_cases h2 : e.2 = v
      · rw [if_pos h2] at hfe
        right
        have hex : e = (x, v) := by
          rcases e with ⟨p, q⟩
          simp_all
        refine ⟨hex ▸ he, ?_⟩
        intro hxv
        exact h1 (by rw [hex] at h1 ⊢; exact (hxv ▸ rfl))
      · rw [if_neg h2] at hfe; cases hfe
  · rintro (h | ⟨h, hne⟩)
    · exact ⟨(v, x), h, by simp⟩
    · exact ⟨(x, v), h, by simp [hne]⟩

lemma mem_neighbors_iff_hasEdge {G : Graph} (hwf : WF G) {v x : Nat} :
    x ∈ neighbors G v ↔ hasEdge G v x = true := by
  rw [mem_neighbors, hasEdge_iff]
  constructor
  · rintro (h | ⟨h, _⟩)
    · exact ⟨(v, x), h, Or.inl rfl⟩
    · exact ⟨(x, v), h, Or.inr rfl⟩
  · rintro ⟨r, hr, hs⟩
    rcases hs with hs | hs
    · exact Or.inl (hs ▸ hr)
    · have hrx : r = (x, v) := by
        rcases r with ⟨p, q⟩
        rcases Prod.mk.injEq .. ▸ hs with ⟨h1, h2⟩
        simp_all
      right
      refine ⟨hrx ▸ hr, ?_⟩
      intro hxv
      exact (hwf.2.1 r hr).2.2 (by rw [hrx]; simp [hxv])

lemma neighbors_nodup {G : Graph} (hwf : WF G) (v : Nat) : (neighbors G v).Nodup := by
  have key : ∀ (e : Nat × Nat) (x : Nat),
      (if e.1 = v then some e.2 else if e.2 = v then some e.1 else none) = some x →
      sameEdge e (v, x) := by
    intro e x hfe
    by_cases h1 : e.1 = v
    · rw [if_pos h1] at hfe
      left
      rcases e with ⟨p, q⟩
      simp_all
    · rw [if_neg h1] at hfe
      by_cases h2 : e.2 = v
      · rw [if_pos h2] at hfe
        right
        rcases e with ⟨p, q⟩
        simp_all
      · rw [if_neg h2] at hfe; cases hfe
  suffices haux : ∀ es : List (Nat × Nat), List.Pairwise (fun e f => ¬ sameEdge e f) es →
      (es.filterMap
        (fun e => if e.1 = v then some e.2 else if e.2 = v then some e.1 else none)).Nodup by
    exact haux G.edges hwf.2.2
  intro es hpw
  induction es with
  | nil => simp
  | cons e es ih =>
    rcases List.pairwise_cons.mp hpw with ⟨hhead, htail⟩
    rw [List.filterMap_cons]
    rcases hfe : (if e.1 = v then some e.2 else if e.2 = v then some e.1 else none)
        with _ | x
    · exact ih htail
    · refine List.Nodup.cons ?_ (ih htail)
      intro hxmem
      rcases List.mem_filterMap.mp hxmem with ⟨e', he', hfe'⟩
      exact hhead e' he'
        (sameEdge_trans (key e x hfe) (sameEdge_symm (key e' x hfe')))

lemma degree_eq_countP (G : Graph) (v : Nat) :
    degree G v = G.edges.countP (fun e => decide (e.1 = v ∨ e.2 = v)) := by
  unfold degree neighbors
  induction G.edges with
  | nil => simp
  | cons e es ih =>
    rw [List.filterMap_cons, List.countP_cons]
    by_cases h1 : e.1 = v
    · simp [h1, ih]
    · by_cases h2 : e.2 = v
      · simp [h1, h2, ih]
      · simp [h1, h2, ih]

lemma sum_map_add (l : List Nat) (f g : Nat → Nat) :
    (l.map (fun v => f v + g v)).sum = (l.map f).sum + (l.map g).sum := by
  induction l with
  | nil => simp
  | cons x l ih => simp [ih]; omega

lemma sum_map_ite_countP (l : List Nat) (p : Nat → Bool) :
    (l.map (fun v => if p v then (1 : Nat) else 0)).sum = l.countP p := by
  induction l with
  | nil => simp
  | cons x l ih =>
    rcases h : p x with _ | _ <;> simp [List.countP_cons, h, ih, Nat.add_comm]

lemma countP_pair {a b : Nat} : ∀ {l : List Nat}, l.Nodup → a ∈ l → b ∈ l → a ≠ b →
    l.countP (fun v => decide (v = a ∨ v = b)) = 2 := by
  intro l
  induction l with
  | nil => intro _ ha _ _; simp at ha
  | cons x l ih =>
    intro hn ha hb hab
    rcases List.nodup_cons.mp hn with ⟨hx, hl⟩
    rw [List.countP_cons]
    by_cases hxa : x = a
    · have hb' : b ∈ l := by
        rcases List.mem_cons.mp hb with h | h
        · exact absurd (h.trans hxa).symm hab
        · exact h
      have htail : l.countP (fun v => decide (v = a ∨ v = b)) = 1 := by
        have hcg : l.countP (fun v => decide (v = a ∨ v = b)) =
            l.countP (fun v => v == b) := by
          apply List.countP_congr
          intro v hv
          have hva : v ≠ a := fun h => (hxa ▸ hx) (h ▸ hv)
          by_cases hvb : v = b
          · simp [hva, hvb]
          · simp [hva, hvb]
        rw [hcg]
        exact List.count_eq_one_of_mem hl hb'
      rw [htail]
      simp [hxa]
    · by_cases hxb : x = b
      · have ha' : a ∈ l := by
          rcases List.mem_cons.mp ha with h | h
          · exact absurd (h.trans hxb) hab
          · exact h
        have htail : l.countP (fun v => decide (v = a ∨ v = b)) = 1 := by
          have hcg : l.countP (fun v => decide (v = a ∨ v = b)) =
              l.countP (fun v => v == a) := by
            apply List.countP_congr
            intro v hv
            have hvb : v ≠ b := fun h => (hxb ▸ hx) (h ▸ hv)
            by_cases hva : v = a
            · simp [hva, hvb]
            · simp [hva, hvb]
          rw [hcg]
          exact List.count_eq_one_of_mem hl ha'
        rw [htail]
        simp [hxb]
      · have ha' : a ∈ l := by
          rcases List.mem_cons.mp ha with h | h
          · exact absurd h.symm hxa
          · exact h
        have hb' : b ∈ l := by
          rcases List.mem_cons.mp hb with h | h
          · exact absurd h.symm hxb
          · exact h
        rw [ih hl ha' hb' hab]
        simp [hxa, hxb]

lemma handshake_aux (nodes : List Nat) (hn : nodes.Nodup) :
    ∀ es : List (Nat × Nat), (∀ e ∈ es, e.1 ∈ nodes ∧ e.2 ∈ nodes ∧ e.1 ≠ e.2) →
    (nodes.map (fun v => es.countP (fun e => decide (e.1 = v ∨ e.2 = v)))).sum =
      2 * es.length := by
  intro es
  induction es with
  | nil =>
    intro _
    simp
  | cons e es ih =>
    intro hend
    have h1 : (nodes.map
          (fun v => (e :: es).countP (fun f => decide (f.1 = v ∨ f.2 = v)))).sum =
        (nodes.map (fun v => es.countP (fun f => decide (f.1 = v ∨ f.2 = v)))).sum +
          (nodes.map (fun v => if decide (e.1 = v ∨ e.2 = v) then (1 : Nat) else 0)).sum := by
      calc (nodes.map (fun v => (e :: es).countP (fun f => decide (f.1 = v ∨ f.2 = v)))).sum
          = (nodes.map (fun v => es.countP (fun f => decide (f.1 = v ∨ f.2 = v)) +
              (if decide (e.1 = v ∨ e.2 = v) then 1 else 0))).sum := by
            congr 1
            apply List.map_congr_left
            intro v _
            rw [List.countP_cons]
        _ = _ := sum_map_add nodes _ _
    rw [h1, ih (fun f hf => hend f (List.mem_cons_of_mem e hf))]
    have he := hend e (List.mem_cons_self e es)
    have h2 : (nodes.map
        (fun v => if decide (e.1 = v ∨ e.2 = v) then (1 : Nat) else 0)).sum = 2 := by
      rw [sum_map_ite_countP]
      have hcg : nodes.countP (fun v => decide (e.1 = v ∨ e.2 = v)) =
          nodes.countP (fun v => decide (v = e.1 ∨ v = e.2)) := by
        apply List.countP_congr
        intro v _
        by_cases h1' : v = e.1
        · simp [h1']
        · by_cases h2' : v = e.2
          · simp [h1', h2', Ne.symm h1']
          · simp [h1', h2', Ne.symm h1', Ne.symm h2']
      rw [hcg]
      exact countP_pair hn he.1 he.2.1 he.2.2
    rw [h2]
    simp only [List.length_cons]
    omega

/-- Handshake lemma: over a well-formed graph the degrees of all nodes
sum to twice the edge count. -/
lemma handshake {G : Graph} (hwf : WF G) :
    (G.nodes.map (degree G)).sum = 2 * G.edges.length := by
  have hmap : G.nodes.map (degree G) =
      G.nodes.map (fun v => G.edges.countP (fun e => decide (e.1 = v ∨ e.2 = v))) := by
    apply List.map_congr_left
    intro v _
    exact degree_eq_countP G v
  rw [hmap]
  exact handshake_aux G.nodes hwf.1 G.edges hwf.2.1

/-! ## Ring lattice characterization -/

lemma addEdges_append (G : Graph) (L1 L2 : List (Nat × Nat)) :
    addEdges G (L1 ++ L2) = addEdges (addEdges G L1) L2 :=
  List.foldl_append _ _ _ _

lemma foldl_addEdges_flatMap {α : Type} (l : List α) (g : α → List (Nat × Nat)) (G : Graph) :
    l.foldl (fun G a => addEdges G (g a)) G = addEdges G (l.flatMap g) := by
  induction l generalizing G with
  | nil => rfl
  | cons a l ih =>
    rw [List.flatMap_cons, List.foldl_cons, addEdges_append, ih]

lemma foldl_addNode_range (n : Nat) :
    (List.range n).foldl (fun G i => addNode G i) emptyGraph = ⟨List.range n, []⟩ := by
  induction n with
  | zero => rfl
  | succ m ih =>
    rw [List.range_succ, List.foldl_append, ih, List.foldl_cons, List.foldl_nil]
    unfold addNode
    simp

lemma ringLattice_eq (n k : Nat) :
    ringLattice n k = addEdges ⟨List.range n, []⟩ (latticeOffers n k) := by
  unfold ringLattice latticeOffers
  rw [foldl_addNode_range]
  have h1 : ∀ (i : Nat) (G : Graph), (List.range' 1 (k / 2)).foldl
      (fun G j => addEdge (addEdge G i ((i + j) % n)) i ((i + (n - j)) % n)) G =
      addEdges G ((List.range' 1 (k / 2)).flatMap (fun j =>
        [(i, (i + j) % n), (i, (i + (n - j)) % n)])) := by
    intro i G
    exact foldl_addEdges_flatMap (List.range' 1 (k / 2))
      (fun j => [(i, (i + j) % n), (i, (i + (n - j)) % n)]) G
  simp only [h1]
  exact foldl_addEdges_flatMap (List.range n)
    (fun i => (List.range' 1 (k / 2)).flatMap (fun j =>
      [(i, (i + j) % n), (i, (i + (n - j)) % n)])) _

lemma hasEdge_addEdges {G : Graph} {L : List (Nat × Nat)} {x y : Nat} :
    hasEdge (addEdges G L) x y = true ↔
      hasEdge G x y = true ∨ ∃ o ∈ L, sameEdge (x, y) o := by
  induction L generalizing G with
  | nil => simp [addEdges]
  | cons o L ih =>
    have hstep : addEdges G (o :: L) = addEdges (addEdge G o.1 o.2) L := rfl
    rw [hstep, ih, hasEdge_addEdge]
    constructor
    · rintro ((h | h) | ⟨o', ho', hs⟩)
      · exact Or.inl h
      · exact Or.inr ⟨o, List.mem_cons_self o L, by rcases o with ⟨p, q⟩; exact h⟩
      · exact Or.inr ⟨o', List.mem_cons_of_mem o ho', hs⟩
    · rintro (h | ⟨o', ho', hs⟩)
      · exact Or.inl (Or.inl h)
      · rcases List.mem_cons.mp ho' with rfl | ho''
        · exact Or.inl (Or.inr (by rcases o' with ⟨p, q⟩; exact hs))
        · exact Or.inr ⟨o', ho'', hs⟩

lemma addEdges_nodes {G : Graph} {L : List (Nat × Nat)}
    (h : ∀ o ∈ L, o.1 ∈ G.nodes ∧ o.2 ∈ G.nodes) : (addEdges G L).nodes = G.nodes := by
  induction L generalizing G with
  | nil => rfl
  | cons o L ih =>
    have he := h o (List.mem_cons_self o L)
    have hstep : addEdges G (o :: L) = addEdges (addEdge G o.1 o.2) L := rfl
    rw [hstep]
    have hn : (addEdge G o.1 o.2).nodes = G.nodes := addEdge_nodes he.1 he.2
    rw [ih (fun o' ho' => by
      rw [hn]
      exact h o' (List.mem_cons_of_mem o ho')), hn]

lemma WF_addEdges {G : Graph} {L : List (Nat × Nat)} (hwf : WF G)
    (h : ∀ o ∈ L, o.1 ∈ G.nodes ∧ o.2 ∈ G.nodes ∧ o.1 ≠ o.2) : WF (addEdges G L) := by
  induction L generalizing G with
  | nil => exact hwf
  | cons o L ih =>
    have he := h o (List.mem_cons_self o L)
    have hstep : addEdges G (o :: L) = addEdges (addEdge G o.1 o.2) L := rfl
    rw [hstep]
    have hn : (addEdge G o.1 o.2).nodes = G.nodes := addEdge_nodes he.1 he.2.1
    exact ih (WF_addEdge hwf he.1 he.2.1 he.2.2) (fun o' ho' => by
      rw [hn]
      exact h o' (List.mem_cons_of_mem o ho'))

lemma mem_latticeOffers {n k : Nat} {o : Nat × Nat} :
    o ∈ latticeOffers n k ↔ ∃ i, i < n ∧ ∃ j, 1 ≤ j ∧ j ≤ k / 2 ∧
      (o = (i, (i + j) % n) ∨ o = (i, (i + (n - j)) % n)) := by
  unfold latticeOffers
  simp only [List.mem_flatMap, List.mem_range, List.mem_range'_1, List.mem_cons,
    List.mem_singleton, List.not_mem_nil, or_false]
  constructor
  · rintro ⟨i, hi, j, ⟨hj1, hj2⟩, ho⟩
    exact ⟨i, hi, j, hj1, by omega, ho⟩
  · rintro ⟨i, hi, j, hj1, hj2, ho⟩
    exact ⟨i, hi, j, ⟨hj1, by omega⟩, ho⟩

lemma mod_add_dvd_of_eq {n i j : Nat} (hi : i < n) (h : (i + j) % n = i) : n ∣ j := by
  have h1 := Nat.div_add_mod (i + j) n
  rw [h] at h1
  exact ⟨(i + j) / n, by omega⟩

lemma latticeOffers_ok {n k : Nat} (hkn : k < n) :
    ∀ o ∈ latticeOffers n k, o.1 ∈ List.range n ∧ o.2 ∈ List.range n ∧ o.1 ≠ o.2 := by
  intro o ho
  rcases mem_latticeOffers.mp ho with ⟨i, hi, j, hj1, hj2, hcase | hcase⟩ <;> subst hcase
  · have hn0 : 0 < n := Nat.lt_of_le_of_lt (Nat.zero_le i) hi
    refine ⟨List.mem_range.mpr hi, List.mem_range.mpr (Nat.mod_lt _ hn0), ?_⟩
    intro hc
    have hdvd : n ∣ j := mod_add_dvd_of_eq hi hc.symm
    have : n ≤ j := Nat.le_of_dvd (by omega) hdvd
    omega
  · have hn0 : 0 < n := Nat.lt_of_le_of_lt (Nat.zero_le i) hi
    refine ⟨List.mem_range.mpr hi, List.mem_range.mpr (Nat.mod_lt _ hn0), ?_⟩
    intro hc
    have hdvd : n ∣ (n - j) := mod_add_dvd_of_eq hi hc.symm
    have : n ≤ n - j := Nat.le_of_dvd (by omega) hdvd
    omega

lemma ringLattice_nodes (n k : Nat) (hkn : k < n) :
    (ringLattice n k).nodes = List.range n := by
  rw [ringLattice_eq]
  exact addEdges_nodes (fun o ho => ⟨(latticeOffers_ok hkn o ho).1, (latticeOffers_ok hkn o ho).2.1⟩)

lemma ringLattice_WF (n k : Nat) (hkn : k < n) : WF (ringLattice n k) := by
  rw [ringLattice_eq]
  exact WF_addEdges ⟨List.nodup_range n, by simp, by simp⟩ (latticeOffers_ok hkn)

lemma sameEdge_offer_iff_inLattice {n k a b : Nat} (hkn : k < n) :
    (∃ o ∈ latticeOffers n k, sameEdge (a, b) o) ↔ inLattice n k a b := by
  constructor
  · rintro ⟨o, ho, hs⟩
    rcases mem_latticeOffers.mp ho with ⟨i, hi, j, hj1, hj2, hcase | hcase⟩ <;> subst hcase
    · rcases hs with hs | hs
      · rcases Prod.mk.injEq .. ▸ hs with ⟨rfl, rfl⟩
        exact ⟨j, hj1, hj2, Or.inl ⟨hi, rfl⟩⟩
      · rcases Prod.mk.injEq .. ▸ hs with ⟨rfl, rfl⟩
        exact ⟨j, hj1, hj2, Or.inr ⟨hi, rfl⟩⟩
    · have hn0 : 0 < n := by omega
      have hjn : j ≤ n := by omega
      have hkey : ∀ x, x < n → (((x + (n - j)) % n) + j) % n = x := by
        intro x hx
        rw [Nat.mod_add_mod, Nat.add_assoc, Nat.sub_add_cancel hjn, Nat.add_mod_right,
          Nat.mod_eq_of_lt hx]
      rcases hs with hs | hs
      · rcases Prod.mk.injEq .. ▸ hs with ⟨rfl, rfl⟩
        refine ⟨j, hj1, hj2, Or.inr ⟨Nat.mod_lt _ hn0, hkey a hi⟩⟩
      · rcases Prod.mk.injEq .. ▸ hs with ⟨rfl, rfl⟩
        refine ⟨j, hj1, hj2, Or.inl ⟨Nat.mod_lt _ hn0, hkey b hi⟩⟩
  · rintro ⟨j, hj1, hj2, ⟨ha, rfl⟩ | ⟨hb, hab⟩⟩
    · exact ⟨(a, (a + j) % n), mem_latticeOffers.mpr ⟨a, ha, j, hj1, hj2, Or.inl rfl⟩,
        Or.inl rfl⟩
    · refine ⟨(b, (b + j) % n), mem_latticeOffers.mpr ⟨b, hb, j, hj1, hj2, Or.inl rfl⟩, ?_⟩
      right
      simp [hab]

lemma ringLattice_hasEdge {n k a b : Nat} (hkn : k < n) :
    hasEdge (ringLattice n k) a b = true ↔ inLattice n k a b := by
  rw [ringLattice_eq, hasEdge_addEdges]
  have hbase : hasEdge ⟨List.range n, []⟩ a b = false := rfl
  rw [hbase]
  simp only [Bool.false_eq_true, false_or]
  exact sameEdge_offer_iff_inLattice hkn

/-! ## Ring lattice degrees -/

lemma add_mod_inj_of_lt {n j j' : Nat} (v : Nat) (hj : j < n) (hj' : j' < n)
    (h : (v + j) % n = (v + j') % n) : j = j' := by
  rcases Nat.le_total j j' with hle | hle
  · have hmod : (v + j) ≡ (v + j') [MOD n] := h
    have hdvd : n ∣ (v + j') - (v + j) := (Nat.modEq_iff_dvd' (by omega)).mp hmod
    have heq : (v + j') - (v + j) = j' - j := by omega
    rw [heq] at hdvd
    have := Nat.eq_zero_of_dvd_of_lt hdvd (by omega)
    omega
  · have hmod : (v + j') ≡ (v + j) [MOD n] := h.symm
    have hdvd : n ∣ (v + j) - (v + j') := (Nat.modEq_iff_dvd' (by omega)).mp hmod
    have heq : (v + j) - (v + j') = j - j' := by omega
    rw [heq] at hdvd
    have := Nat.eq_zero_of_dvd_of_lt hdvd (by omega)
    omega

lemma shift_fwd_back {n j x : Nat} (hj : j ≤ n) (hx : x < n) :
    (((x + j) % n) + (n - j)) % n = x := by
  rw [Nat.mod_add_mod, Nat.add_assoc, Nat.add_sub_cancel' hj, Nat.add_mod_right,
    Nat.mod_eq_of_lt hx]

lemma inLattice_iff_image {n k v x : Nat} (hkn : k < n) (hv : v < n) :
    inLattice n k v x ↔
      ∃ j, 1 ≤ j ∧ j ≤ k / 2 ∧ (x = (v + j) % n ∨ x = (v + (n - j)) % n) := by
  constructor
  · rintro ⟨j, hj1, hj2, ⟨hvn, rfl⟩ | ⟨hx, hxj⟩⟩
    · exact ⟨j, hj1, hj2, Or.inl rfl⟩
    · refine ⟨j, hj1, hj2, Or.inr ?_⟩
      rw [← hxj, shift_fwd_back (by omega) hx]
  · rintro ⟨j, hj1, hj2, rfl | rfl⟩
    · exact ⟨j, hj1, hj2, Or.inl ⟨hv, rfl⟩⟩
    · refine ⟨j, hj1, hj2, Or.inr ⟨Nat.mod_lt _ (by omega), ?_⟩⟩
      rw [Nat.mod_add_mod, Nat.add_assoc, Nat.sub_add_cancel (by omega : j ≤ n),
        Nat.add_mod_right, Nat.mod_eq_of_lt hv]

lemma ringLattice_degree {n k v : Nat} (hk2 : k % 2 = 0) (hkn : k < n) (hv : v < n) :
    degree (ringLattice n k) v = k := by
  have hwf := ringLattice_WF n k hkn
  have hnodup := neighbors_nodup hwf v
  have hmem : ∀ x, x ∈ neighbors (ringLattice n k) v ↔ inLattice n k v x := by
    intro x
    rw [mem_neighbors_iff_hasEdge hwf, ringLattice_hasEdge hkn]
  have hcard : (neighbors (ringLattice n k) v).length =
      ((neighbors (ringLattice n k) v).toFinset).card :=
    (List.toFinset_card_of_nodup hnodup).symm
  have hset : (neighbors (ringLattice n k) v).toFinset =
      (Finset.Icc 1 (k / 2)).image (fun j => (v + j) % n) ∪
        (Finset.Icc 1 (k / 2)).image (fun j => (v + (n - j)) % n) := by
    ext x
    simp only [List.mem_toFinset, Finset.mem_union, Finset.mem_image, Finset.mem_Icc]
    rw [hmem x, inLattice_iff_image hkn hv]
    constructor
    · rintro ⟨j, hj1, hj2, h | h⟩
      · exact Or.inl ⟨j, ⟨hj1, hj2⟩, h.symm⟩
      · exact Or.inr ⟨j, ⟨hj1, hj2⟩, h.symm⟩
    · rintro (⟨j, ⟨hj1, hj2⟩, h⟩ | ⟨j, ⟨hj1, hj2⟩, h⟩)
      · exact ⟨j, hj1, hj2, Or.inl h.symm⟩
      · exact ⟨j, hj1, hj2, Or.inr h.symm⟩
  have hinj1 : Set.InjOn (fun j => (v + j) % n) ↑(Finset.Icc 1 (k / 2)) := by
    intro j hj j' hj' h
    rw [Finset.coe_Icc, Set.mem_Icc] at hj hj'
    exact add_mod_inj_of_lt v (by omega) (by omega) h
  have hinj2 : Set.InjOn (fun j => (v + (n - j)) % n) ↑(Finset.Icc 1 (k / 2)) := by
    intro j hj j' hj' h
    rw [Finset.coe_Icc, Set.mem_Icc] at hj hj'
    have := add_mod_inj_of_lt v (show n - j < n by omega) (show n - j' < n by omega) h
    omega
  have hdisj : Disjoint ((Finset.Icc 1 (k / 2)).image (fun j => (v + j) % n))
      ((Finset.Icc 1 (k / 2)).image (fun j => (v + (n - j)) % n)) := by
    rw [Finset.disjoint_left]
    rintro x hx1 hx2
    rcases Finset.mem_image.mp hx1 with ⟨j, hj, rfl⟩
    rcases Finset.mem_image.mp hx2 with ⟨j', hj', heq⟩
    rw [Finset.mem_Icc] at hj hj'
    have := add_mod_inj_of_lt v (show j < n by omega) (show n - j' < n by omega) heq.symm
    omega
  show (neighbors (ringLattice n k) v).length = k
  rw [hcard, hset, Finset.card_union_of_disjoint hdisj,
    Finset.card_image_of_injOn hinj1, Finset.card_image_of_injOn hinj2, Nat.card_Icc]
  omega

/-! ## Rewiring preserves node set, well-formedness and edge count -/

lemma hasEdge_of_mem {G : Graph} {e : Nat × Nat} (h : e ∈ G.edges) :
    hasEdge G e.1 e.2 = true :=
  hasEdge_iff.mpr ⟨e, h, Or.inl rfl⟩

lemma hasEdge_endpoints {G : Graph} (hwf : WF G) {a b : Nat}
    (h : hasEdge G a b = true) : a ∈ G.nodes ∧ b ∈ G.nodes ∧ a ≠ b := by
  rcases hasEdge_iff.mp h with ⟨r, hr, hs⟩
  have hend := hwf.2.1 r hr
  rcases hs with hs | hs
  · rcases Prod.mk.injEq .. ▸ hs with ⟨rfl, rfl⟩
    exact hend
  · rcases Prod.mk.injEq .. ▸ hs with ⟨rfl, rfl⟩
    exact ⟨hend.2.1, hend.1, (hend.2.2).symm⟩

lemma rewireStep_props {n : Nat} {p : ℚ} {σ : Nat → ℚ} {G : Graph} {c : Nat}
    {e : Nat × Nat} (hwf : WF G) (hrange : ∀ t, t < n → t ∈ G.nodes)
    (hpres : hasEdge G e.1 e.2 = true) :
    WF (rewireStep n p σ (G, c) e).1 ∧
      (rewireStep n p σ (G, c) e).1.nodes = G.nodes ∧
      (rewireStep n p σ (G, c) e).1.edges.length = G.edges.length ∧
      (∀ x y, hasEdge G x y = true → ¬ sameEdge (x, y) e →
        hasEdge (rewireStep n p σ (G, c) e).1 x y = true) := by
  unfold rewireStep
  by_cases h1 : e.2 < e.1
  · simp only [h1, if_true]
    exact ⟨hwf, by trivial, by trivial, fun x y hxy _ => hxy⟩
  · simp only [h1, if_false]
    by_cases h2 : σ c < p
    · simp only [h2, if_true]
      set cands := (List.range n).filter (fun t => !(t == e.1) && !(hasEdge G e.1 t))
        with hcands
      by_cases h3 : cands = []
      · simp only [h3, if_true]
        exact ⟨hwf, by trivial, by trivial, fun x y hxy _ => hxy⟩
      · simp only [h3, if_false]
        have hlen : 0 < cands.length := List.length_pos.mpr h3
        have hidx : choiceIdx (σ (c + 1)) cands.length % cands.length < cands.length :=
          Nat.mod_lt _ hlen
        have hidx' : choiceIdx (σ (c + 1)) cands.length < cands.length := by
          unfold choiceIdx
          exact Nat.mod_lt _ hlen
        have htmem : cands.getD (choiceIdx (σ (c + 1)) cands.length) 0 ∈ cands := by
          rw [List.getD_eq_get _ _ hidx']
          exact List.get_mem cands _ _
        set t := cands.getD (choiceIdx (σ (c + 1)) cands.length) 0 with ht
        rcases List.mem_filter.mp htmem with ⟨htr, htp⟩
        have htn : t < n := List.mem_range.mp htr
        rcases Bool.and_eq_true .. ▸ htp with ⟨htp1, htp2⟩
        have hte1 : t ≠ e.1 := by
          intro hc
          rw [hc] at htp1
          simp at htp1
        have hno : hasEdge G e.1 t = false := by
          rcases hv : hasEdge G e.1 t with _ | _
          · rfl
          · rw [hv] at htp2; simp at htp2
        have hends := hasEdge_endpoints hwf hpres
        have hwf1 : WF (removeEdge G e.1 e.2) := WF_removeEdge hwf e.1 e.2
        have hno1 : hasEdge (removeEdge G e.1 e.2) e.1 t = false := by
          rcases hv : hasEdge (removeEdge G e.1 e.2) e.1 t with _ | _
          · rfl
          · rw [hasEdge_removeEdge] at hv
            rw [hv.1] at hno
            cases hno
        have hnodes1 : (removeEdge G e.1 e.2).nodes = G.nodes := rfl
        have hwf2 : WF (addEdge (removeEdge G e.1 e.2) e.1 t) := by
          apply WF_addEdge hwf1
          · rw [hnodes1]; exact hends.1
          · rw [hnodes1]; exact hrange t htn
          · exact Ne.symm hte1
        refine ⟨hwf2, ?_, ?_, ?_⟩
        · rw [addEdge_nodes (by rw [hnodes1]; exact hends.1) (by rw [hnodes1]; exact hrange t htn)]
          exact hnodes1
        · rw [addEdge_length_of_not hno1]
          have := removeEdge_length hwf (a := e.1) (b := e.2) hpres
          omega
        · intro x y hxy hns
          apply hasEdge_addEdge.mpr
          left
          apply hasEdge_removeEdge.mpr
          exact ⟨hxy, hns⟩
    · simp only [h2, if_false]
      exact ⟨hwf, by trivial, by trivial, fun x y hxy _ => hxy⟩

lemma rewire_fold_preserves {n : Nat} {p : ℚ} {σ : Nat → ℚ} :
    ∀ (es : List (Nat × Nat)) (G : Graph) (c : Nat),
      WF G → (∀ t, t < n → t ∈ G.nodes) →
      (∀ e ∈ es, hasEdge G e.1 e.2 = true) →
      List.Pairwise (fun e f => ¬ sameEdge e f) es →
      WF (es.foldl (rewireStep n p σ) (G, c)).1 ∧
      (es.foldl (rewireStep n p σ) (G, c)).1.nodes = G.nodes ∧
      (es.foldl (rewireStep n p σ) (G, c)).1.edges.length = G.edges.length := by
  intro es
  induction es with
  | nil =>
    intro G c hwf _ _ _
    exact ⟨hwf, rfl, rfl⟩
  | cons e es ih =>
    intro G c hwf hrange hpend hpw
    rcases List.pairwise_cons.mp hpw with ⟨hhead, htail⟩
    have hpres : hasEdge G e.1 e.2 = true := hpend e (List.mem_cons_self e es)
    have hstep := rewireStep_props (n := n) (p := p) (σ := σ) (c := c) hwf hrange hpres
    rw [List.foldl_cons]
    rcases hst : rewireStep n p σ (G, c) e with ⟨G1, c1⟩
    rw [hst] at hstep
    obtain ⟨hwf1, hnodes1, hlen1, hkeep⟩ := hstep
    have hnext := ih G1 c1 hwf1
      (fun t ht => by rw [hnodes1]; exact hrange t ht)
      (fun f hf => by
        apply hkeep f.1 f.2 (hpend f (List.mem_cons_of_mem e hf))
        intro hs
        exact hhead f hf (sameEdge_symm hs))
      htail
    exact ⟨hnext.1, by rw [hnext.2.1, hnodes1], by rw [hnext.2.2, hlen1]⟩

lemma rewire_fold_p_zero {n : Nat} {p : ℚ} {σ : Nat → ℚ} (hσ : ∀ i, 0 ≤ σ i)
    (hp : p ≤ 0) :
    ∀ (es : List (Nat × Nat)) (G : Graph) (c : Nat),
      (es.foldl (rewireStep n p σ) (G, c)).1 = G := by
  intro es
  induction es with
  | nil => intro G c; rfl
  | cons e es ih =>
    intro G c
    rw [List.foldl_cons]
    have hstep : ∃ c', rewireStep n p σ (G, c) e = (G, c') := by
      unfold rewireStep
      by_cases h1 : e.2 < e.1
      · exact ⟨c, by simp [h1]⟩
      · have h2 : ¬ (σ c < p) := not_lt.mpr (le_trans hp (hσ c))
        exact ⟨c + 1, by simp [h1, h2]⟩
    rcases hstep with ⟨c', hc'⟩
    rw [hc', ih]

/-! ## Claim C5 -/

/-- C5: for every input with `k` odd, or `k ≥ n`, or `p` outside `[0,1]`,
the generator fails with a validation error (`InvalidParameter` in the
spec's taxonomy) and returns no graph, partial or otherwise: validation
precedes all graph construction. -/
theorem C5_invalid_parameters_rejected (n k : Nat) (p : ℚ) (σ : Nat → ℚ)
    (h : k % 2 = 1 ∨ n ≤ k ∨ p < 0 ∨ 1 < p) :
    ∃ err, watts_strogatz_model n k p σ = .error err := by
  unfold watts_strogatz_model
  by_cases h1 : k % 2 ≠ 0
  · exact ⟨.kOdd, by simp [h1]⟩
  · by_cases h2 : n ≤ k
    · exact ⟨.kNotLtN, by simp [h1, h2]⟩
    · refine ⟨.pOutOfRange, ?_⟩
      have h3 : ¬ (0 ≤ p ∧ p ≤ 1) := by
        rcases h with h | h | h | h
        · omega
        · exact absurd h h2
        · intro hc; exact absurd hc.1 (not_le.mpr h)
        · intro hc; exact absurd hc.2 (not_le.mpr h)
      simp [h1, h2, h3]

/-- Witness for C5 at the concrete invalid input `n = 10`, `k = 3`
(odd), `p = 1/2`. -/
theorem C5_invalid_parameters_rejected_witness :
    ∃ err, watts_strogatz_model 10 3 (1/2) (fun _ => 0) = .error err :=
  C5_invalid_parameters_rejected 10 3 (1/2) (fun _ => 0) (Or.inl (by decide))

/-! ## Claims C3 and C4 -/

lemma watts_ok_eq (n k : Nat) (p : ℚ) (σ : Nat → ℚ) (hk2 : k % 2 = 0) (hkn : k < n)
    (hp0 : 0 ≤ p) (hp1 : p ≤ 1) :
    watts_strogatz_model n k p σ =
      .ok ((ringLattice n k).edges.foldl (rewireStep n p σ) (ringLattice n k, 0)).1 := by
  unfold watts_strogatz_model
  have h1 : ¬ (k % 2 ≠ 0) := by omega
  have h2 : ¬ (n ≤ k) := by omega
  have h3 : ¬ ¬ (0 ≤ p ∧ p ≤ 1) := not_not.mpr ⟨hp0, hp1⟩
  simp only [h1, h2, h3, if_false]

lemma watts_p_zero_eq (n k : Nat) (σ : Nat → ℚ) (hk2 : k % 2 = 0) (hkn : k < n)
    (hσ : ∀ i, 0 ≤ σ i) :
    watts_strogatz_model n k 0 σ = .ok (ringLattice n k) := by
  rw [watts_ok_eq n k 0 σ hk2 hkn le_rfl zero_le_one,
    rewire_fold_p_zero hσ le_rfl]

/-- C3: for every valid input (`k` even, `0 ≤ k < n`, `p ∈ [0,1]`) and
every outcome of the random draws, the generator succeeds and the
returned graph has exactly `n` nodes and exactly `n*k/2` edges;
consequently its degrees over all nodes sum to `n*k`. -/
theorem C3_edge_count_invariant (n k : Nat) (p : ℚ) (σ : Nat → ℚ)
    (hk2 : k % 2 = 0) (hkn : k < n) (hp0 : 0 ≤ p) (hp1 : p ≤ 1) :
    ∃ G, watts_strogatz_model n k p σ = Except.ok G ∧
      G.nodes.length = n ∧ G.edges.length = n * k / 2 ∧
      (G.nodes.map (degree G)).sum = n * k := by
  have hmodel := watts_ok_eq n k p σ hk2 hkn hp0 hp1
  have hwfL : WF (ringLattice n k) := ringLattice_WF n k hkn
  have hnodesL : (ringLattice n k).nodes = List.range n := ringLattice_nodes n k hkn
  have hdegL : ∀ v ∈ (ringLattice n k).nodes, degree (ringLattice n k) v = k := by
    intro v hv
    rw [hnodesL] at hv
    exact ringLattice_degree hk2 hkn (List.mem_range.mp hv)
  have hsumL : ((ringLattice n k).nodes.map (degree (ringLattice n k))).sum = n * k := by
    rw [List.map_congr_left hdegL, List.map_const', List.sum_replicate, smul_eq_mul,
      hnodesL, List.length_range]
  have hEL : 2 * (ringLattice n k).edges.length = n * k := by
    rw [← handshake hwfL, hsumL]
  have hfold := rewire_fold_preserves (p := p) (σ := σ) (ringLattice n k).edges
    (ringLattice n k) 0 hwfL
    (fun t ht => by rw [hnodesL]; exact List.mem_range.mpr ht)
    (fun e he => hasEdge_of_mem he) hwfL.2.2
  refine ⟨_, hmodel, ?_, ?_, ?_⟩
  · rw [hfold.2.1, hnodesL, List.length_range]
  · rw [hfold.2.2]; omega
  · rw [handshake hfold.1, hfold.2.2]; omega

/-- Witness for C3 at the concrete valid input `n = 5`, `k = 2`,
`p = 1/2` with a constant random stream. -/
theorem C3_edge_count_invariant_witness :
    ∃ G, watts_strogatz_model 5 2 (1/2) (fun _ => 1/3) = Except.ok G ∧
      G.nodes.length = 5 ∧ G.edges.length = 5 * 2 / 2 ∧
      (G.nodes.map (degree G)).sum = 5 * 2 :=
  C3_edge_count_invariant 5 2 (1/2) (fun _ => 1/3) (by decide) (by decide)
    (by norm_num) (by norm_num)

/-- C4: for every valid `n` and `k`, the generator with `p = 0` (and any
stream of nonnegative draws, as `random.random()` produces) returns the
ring lattice itself: nodes `0..n-1`, edge set exactly the pairs
`{i, (i+j) mod n}` for `j ∈ 1..k/2`, and every node of degree exactly
`k` — not `2k`, although the construction iterates both left and right
offsets. -/
theorem C4_p_zero_is_ring_lattice (n k : Nat) (σ : Nat → ℚ)
    (hk2 : k % 2 = 0) (hkn : k < n) (hσ : ∀ i, 0 ≤ σ i) :
    ∃ G, watts_strogatz_model n k 0 σ = Except.ok G ∧
      G.nodes = List.range n ∧
      (∀ a b, hasEdge G a b = true ↔ inLattice n k a b) ∧
      (∀ v ∈ G.nodes, degree G v = k) := by
  refine ⟨ringLattice n k, watts_p_zero_eq n k σ hk2 hkn hσ, ringLattice_nodes n k hkn,
    fun a b => ringLattice_hasEdge hkn, fun v hv => ?_⟩
  exact ringLattice_degree hk2 hkn
    (List.mem_range.mp ((ringLattice_nodes n k hkn) ▸ hv))

/-- Witness for C4 at the concrete valid input `n = 6`, `k = 4`. -/
theorem C4_p_zero_is_ring_lattice_witness :
    ∃ G, watts_strogatz_model 6 4 0 (fun _ => 0) = Except.ok G ∧
      G.nodes = List.range 6 ∧
      (∀ a b, hasEdge G a b = true ↔ inLattice 6 4 a b) ∧
      (∀ v ∈ G.nodes, degree G v = 4) :=
  C4_p_zero_is_ring_lattice 6 4 (fun _ => 0) (by decide) (by decide) (fun _ => le_refl 0)

/-! ## Claim C8 -/

/-- C8, the behavior the code does exhibit at the claim's concrete input:
with `p = 0` (here `n = 10`, `k = 4`) the generator's output does not
depend on the random draws at all, so repeated runs agree whatever the
seed.  The injectable-source half of the claim fails on the source code
itself: `watts_strogatz_model(n, k, p)` accepts no random source or seed
from the caller and draws from the hidden module-global `random` state
(`random.random()` / `random.choice`), which is why this embedding has to
supply the stream `σ` as an extra, extrinsic argument. -/
theorem C8_p_zero_reproducible (σ σ' : Nat → ℚ) (hσ : ∀ i, 0 ≤ σ i)
    (hσ' : ∀ i, 0 ≤ σ' i) :
    watts_strogatz_model 10 4 0 σ = watts_strogatz_model 10 4 0 σ' := by
  rw [watts_p_zero_eq 10 4 σ (by decide) (by decide) hσ,
    watts_p_zero_eq 10 4 σ' (by decide) (by decide) hσ']

/-- Witness for C8 at two concrete distinct streams. -/
theorem C8_p_zero_reproducible_witness :
    watts_strogatz_model 10 4 0 (fun _ => 0) = watts_strogatz_model 10 4 0 (fun _ => 1/2) :=
  C8_p_zero_reproducible (fun _ => 0) (fun _ => 1/2) (fun _ => le_refl 0)
    (fun _ => by norm_num)

/-! ## Claim C9: degree centrality -/

lemma lookup_map_self {β : Type} {l : List Nat} (f : Nat → β) {v : Nat} (hv : v ∈ l) :
    (l.map (fun x => (x, f x))).lookup v = some (f v) := by
  induction l with
  | nil => cases hv
  | cons x l ih =>
    rw [List.map_cons, List.lookup_cons]
    by_cases hvx : v = x
    · simp [hvx]
    · have hbeq : (v == x) = false := beq_eq_false_iff_ne.mpr hvx
      rw [hbeq]
      rcases List.mem_cons.mp hv with h | h
      · exact absurd h hvx
      · exact ih h

/-- C9: with `normalized = false`, degree centrality assigns every node
its degree, and the scores over all nodes sum to twice the edge count. -/
theorem C9_degree_centrality_raw (G : Graph) (hwf : WF G) :
    (∀ v ∈ G.nodes,
      (compute_degree_centrality G false).lookup v = some (degree G v : ℚ)) ∧
    ((compute_degree_centrality G false).map (fun vq => vq.2)).sum =
      2 * (G.edges.length : ℚ) := by
  constructor
  · intro v hv
    unfold compute_degree_centrality
    exact lookup_map_self (fun v => (degree G v : ℚ)) hv
  · unfold compute_degree_centrality
    rw [List.map_map]
    have hcomp : ((fun vq : Nat × ℚ => vq.2) ∘
        fun v => (v, if false then (degree G v : ℚ) / ((G.nodes.length : ℚ) - 1)
          else (degree G v : ℚ))) = fun v => ((degree G v : ℕ) : ℚ) := rfl
    rw [hcomp]
    have hcast : (G.nodes.map (fun v => ((degree G v : ℕ) : ℚ))).sum =
        (((G.nodes.map (degree G)).sum : ℕ) : ℚ) := by
      rw [Nat.cast_list_sum, List.map_map]
      rfl
    rw [hcast, handshake hwf]
    push_cast
    ring

/-- Witness for C9 at the triangle-with-pendant graph. -/
theorem C9_degree_centrality_raw_witness :
    (∀ v ∈ exT4.nodes,
      (compute_degree_centrality exT4 false).lookup v = some (degree exT4 v : ℚ)) ∧
    ((compute_degree_centrality exT4 false).map (fun vq => vq.2)).sum =
      2 * (exT4.edges.length : ℚ) :=
  C9_degree_centrality_raw exT4 (by decide)

/-! ## Claim C7: average clustering coefficient -/

lemma countP_eq_card_filter_toFinset {l : List Nat} (hl : l.Nodup) (p : Nat → Bool) :
    l.countP p = (l.toFinset.filter (fun x => p x = true)).card := by
  rw [← List.toFinset_filter, List.toFinset_card_of_nodup (hl.filter p),
    List.countP_eq_length_filter]

lemma pairs_card_step {G : Graph} {x : Nat} {xs : List Nat} (hx : x ∉ xs) :
    (((x :: xs).toFinset ×ˢ (x :: xs).toFinset).filter
        (fun ab => ab.1 < ab.2 ∧ hasEdge G ab.1 ab.2 = true)).card =
      ((xs.toFinset ×ˢ xs.toFinset).filter
        (fun ab => ab.1 < ab.2 ∧ hasEdge G ab.1 ab.2 = true)).card +
        (xs.toFinset.filter (fun y => hasEdge G x y = true)).card := by
  have hxT : x ∉ xs.toFinset := fun hc => hx (List.mem_toFinset.mp hc)
  have hsplit : ((x :: xs).toFinset ×ˢ (x :: xs).toFinset).filter
      (fun ab => ab.1 < ab.2 ∧ hasEdge G ab.1 ab.2 = true) =
      ((xs.toFinset ×ˢ xs.toFinset).filter
        (fun ab => ab.1 < ab.2 ∧ hasEdge G ab.1 ab.2 = true)) ∪
      ((xs.toFinset.filter (fun y => hasEdge G x y = true)).image
        (fun y => if x < y then (x, y) else (y, x))) := by
    ext ab
    rcases ab with ⟨a, b⟩
    simp only [Finset.mem_filter, Finset.mem_product, Finset.mem_union, Finset.mem_image,
      List.toFinset_cons, Finset.mem_insert]
    constructor
    · rintro ⟨⟨ha, hb⟩, hlt, hedge⟩
      rcases ha with rfl | ha
      · rcases hb with rfl | hb
        · omega
        · right
          exact ⟨b, ⟨hb, hedge⟩, by rw [if_pos hlt]⟩
      · rcases hb with rfl | hb
        · right
          refine ⟨a, ⟨ha, by rw [hasEdge_comm]; exact hedge⟩, ?_⟩
          rw [if_neg (by omega)]
        · exact Or.inl ⟨⟨ha, hb⟩, hlt, hedge⟩
    · rintro (⟨⟨ha, hb⟩, hlt, hedge⟩ | ⟨y, ⟨hy, hedge⟩, himg⟩)
      · exact ⟨⟨Or.inr ha, Or.inr hb⟩, hlt, hedge⟩
      · have hyx : y ≠ x := fun hc => hxT (hc ▸ hy)
        by_cases hxy : x < y
        · rw [if_pos hxy] at himg
          rcases Prod.mk.injEq .. ▸ himg.symm with ⟨rfl, rfl⟩
          exact ⟨⟨Or.inl rfl, Or.inr hy⟩, hxy, hedge⟩
        · rw [if_neg hxy] at himg
          rcases Prod.mk.injEq .. ▸ himg.symm with ⟨rfl, rfl⟩
          refine ⟨⟨Or.inr hy, Or.inl rfl⟩, by omega, ?_⟩
          rw [hasEdge_comm]
          exact hedge
  have hdisj : Disjoint ((xs.toFinset ×ˢ xs.toFinset).filter
      (fun ab => ab.1 < ab.2 ∧ hasEdge G ab.1 ab.2 = true))
      ((xs.toFinset.filter (fun y => hasEdge G x y = true)).image
        (fun y => if x < y then (x, y) else (y, x))) := by
    rw [Finset.disjoint_left]
    rintro ⟨a, b⟩ hab himg
    rcases Finset.mem_filter.mp hab with ⟨habp, _⟩
    rcases Finset.mem_product.mp habp with ⟨ha, hb⟩
    rcases Finset.mem_image.mp himg with ⟨y, _, himg'⟩
    by_cases hxy : x < y
    · rw [if_pos hxy] at himg'
      have : a = x := (congrArg Prod.fst himg').symm
      exact hxT (this ▸ ha)
    · rw [if_neg hxy] at himg'
      have : b = x := (congrArg Prod.snd himg').symm
      exact hxT (this ▸ hb)
  have hinj : Set.InjOn (fun y => if x < y then (x, y) else (y, x))
      ↑(xs.toFinset.filter (fun y => hasEdge G x y = true)) := by
    intro y hy y' hy' h
    have hyx : y ≠ x := by
      intro hc
      rcases Finset.mem_coe.mp hy with hy2
      exact hxT (hc ▸ (Finset.mem_filter.mp hy2).1)
    have hy'x : y' ≠ x := by
      intro hc
      rcases Finset.mem_coe.mp hy' with hy2
      exact hxT (hc ▸ (Finset.mem_filter.mp hy2).1)
    by_cases h1 : x < y <;> by_cases h2 : x < y' <;>
      simp only [h1, h2, if_true, if_false, Prod.mk.injEq] at h
    · exact h.2
    · exact absurd h.1.symm hy'x
    · exact absurd h.1 hyx
    · exact h.1
  rw [hsplit, Finset.card_union_of_disjoint hdisj, Finset.card_image_of_injOn hinj]

lemma pairsOf_countP {G : Graph} : ∀ {l : List Nat}, l.Nodup →
    (pairsOf l).countP (fun ab => hasEdge G ab.1 ab.2) =
      ((l.toFinset ×ˢ l.toFinset).filter
        (fun ab => ab.1 < ab.2 ∧ hasEdge G ab.1 ab.2 = true)).card := by
  intro l
  induction l with
  | nil => intro _; simp [pairsOf]
  | cons x xs ih =>
    intro hnd
    rcases List.nodup_cons.mp hnd with ⟨hx, hxs⟩
    rw [pairsOf, List.countP_append, List.countP_map, pairs_card_step hx, ih hxs]
    have : ((fun ab : Nat × Nat => hasEdge G ab.1 ab.2) ∘ fun y => (x, y)) =
        fun y => hasEdge G x y := rfl
    rw [this, countP_eq_card_filter_toFinset hxs]
    omega

lemma localCC_eq_spec {G : Graph} (hwf : WF G) (v : Nat) :
    localCC G v = localCCSpec G v := by
  unfold localCC localCCSpec numEdgesAmong degree
  dsimp only
  rw [pairsOf_countP (neighbors_nodup hwf v)]

/-- C7: the average clustering coefficient is the arithmetic mean over
all nodes of the spec's local coefficient (0 for degree < 2, else edges
among the neighbor set over `k(k-1)/2`), with result 0 on the zero-node
graph. -/
theorem C7_average_clustering (G : Graph) (hwf : WF G) :
    compute_clustering_coefficient G =
      if G.nodes.length = 0 then 0
      else (G.nodes.map (localCCSpec G)).sum / (G.nodes.length : ℚ) := by
  unfold compute_clustering_coefficient
  rw [List.map_congr_left (fun v _ => localCC_eq_spec hwf v), List.length_map]
  by_cases h : G.nodes.length = 0
  · simp [h]
  · rw [if_pos (by omega), if_neg h]

/-- Witness for C7 at the triangle-with-pendant graph. -/
theorem C7_average_clustering_witness :
    compute_clustering_coefficient exT4 =
      if exT4.nodes.length = 0 then 0
      else (exT4.nodes.map (localCCSpec exT4)).sum / (exT4.nodes.length : ℚ) :=
  C7_average_clustering exT4 (by decide)

/-! ## Closeness centrality: the stale-entry characterization -/

lemma closeness_fold_none (G : Graph) (c : ℚ) (u : Nat) :
    ∀ (ts : List Nat) (e : Option ℚ),
      (ts.foldl (closenessStep G c u) (none, e)).2 = e := by
  intro ts
  induction ts with
  | nil => intro e; rfl
  | cons t ts ih =>
    intro e
    rw [List.foldl_cons]
    have hstep : closenessStep G c u (none, e) t = (none, e) := by
      unfold closenessStep
      by_cases ht : t = u <;> simp [ht]
    rw [hstep, ih]

lemma closeness_fold (G : Graph) (c : ℚ) (u : Nat) :
    ∀ (ts : List Nat) (s : Nat) (e : Option ℚ),
      (ts.foldl (closenessStep G c u) (some s, e)).2 =
        if (ts.takeWhile (fun t => t == u || (shortestPathLen G u t).isSome)) ≠ [] ∧
            0 < s + (((ts.takeWhile (fun t => t == u ||
                (shortestPathLen G u t).isSome)).filter (fun t => !(t == u))).map
                (fun t => (shortestPathLen G u t).getD 0)).sum
          then some (c / ((s + (((ts.takeWhile (fun t => t == u ||
              (shortestPathLen G u t).isSome)).filter (fun t => !(t == u))).map
              (fun t => (shortestPathLen G u t).getD 0)).sum : Nat) : ℚ))
          else e := by
  intro ts
  induction ts with
  | nil =>
    intro s e
    simp
  | cons t ts ih =>
    intro s e
    rw [List.foldl_cons]
    set P : Nat → Bool := fun t => t == u || (shortestPathLen G u t).isSome with hP
    set F : Nat → Bool := fun t => !(t == u) with hF
    set D : Nat → Nat := fun t => (shortestPathLen G u t).getD 0 with hD
    by_cases htu : t = u
    · have hstep : closenessStep G c u (some s, e) t =
          (some s, if 0 < s then some (c / (s : ℚ)) else e) := by
        unfold closenessStep
        simp [htu]
      have hPt : P t = true := by simp [hP, htu]
      have hFt : ¬ F t = true := by simp [hF, htu]
      rw [hstep, ih, List.takeWhile_cons_of_pos hPt, List.filter_cons_of_neg hFt]
      rcases hqw : ts.takeWhile P with _ | ⟨w, ws⟩
      · simp only [List.filter_nil, List.map_nil, List.sum_nil, Nat.add_zero]
        rw [if_neg (show ¬(([] : List Nat) ≠ [] ∧ 0 < s) from by simp)]
        by_cases hs : 0 < s
        · rw [if_pos hs, if_pos (show [t] ≠ [] ∧ 0 < s from ⟨by simp, hs⟩)]
        · rw [if_neg hs, if_neg (show ¬([t] ≠ [] ∧ 0 < s) from by simp [hs])]
      · by_cases hsum : 0 < s + (((w :: ws).filter F).map D).sum
        · rw [if_pos (show w :: ws ≠ [] ∧ 0 < s + (((w :: ws).filter F).map D).sum
              from ⟨by simp, hsum⟩),
            if_pos (show t :: w :: ws ≠ [] ∧ 0 < s + (((w :: ws).filter F).map D).sum
              from ⟨by simp, hsum⟩)]
        · rw [if_neg (show ¬(w :: ws ≠ [] ∧ 0 < s + (((w :: ws).filter F).map D).sum)
              from fun hc => hsum hc.2),
            if_neg (show ¬(0 < s) from by omega),
            if_neg (show ¬(t :: w :: ws ≠ [] ∧ 0 < s + (((w :: ws).filter F).map D).sum)
              from fun hc => hsum hc.2)]
    · rcases hspl : shortestPathLen G u t with _ | d
      · have hstep : closenessStep G c u (some s, e) t = (none, e) := by
          unfold closenessStep
          simp [htu, hspl]
        have hPt : ¬ P t = true := by simp [hP, htu, hspl]
        rw [hstep, closeness_fold_none, List.takeWhile_cons_of_neg hPt]
        simp
      · have hstep : closenessStep G c u (some s, e) t =
            (some (s + d), if 0 < s + d then some (c / ((s + d : Nat) : ℚ)) else e) := by
          unfold closenessStep
          simp [htu, hspl]
        have hPt : P t = true := by simp [hP, hspl]
        have hFt : F t = true := by simp [hF, htu]
        have hDt : D t = d := by simp [hD, hspl]
        rw [hstep, ih, List.takeWhile_cons_of_pos hPt, List.filter_cons_of_pos hFt,
          List.map_cons, List.sum_cons, hDt]
        rcases hqw : ts.takeWhile P with _ | ⟨w, ws⟩
        · simp only [List.filter_nil, List.map_nil, List.sum_nil, Nat.add_zero]
          rw [if_neg (show ¬(([] : List Nat) ≠ [] ∧ 0 < s + d) from by simp)]
          by_cases hs : 0 < s + d
          · rw [if_pos hs, if_pos (show [t] ≠ [] ∧ 0 < s + d from ⟨by simp, hs⟩)]
          · rw [if_neg hs, if_neg (show ¬([t] ≠ [] ∧ 0 < s + d) from by simp [hs])]
        · rw [show s + (d + (((w :: ws).filter F).map D).sum) =
            s + d + (((w :: ws).filter F).map D).sum from by omega]
          by_cases hsum : 0 < s + d + (((w :: ws).filter F).map D).sum
          · rw [if_pos (show w :: ws ≠ [] ∧ 0 < s + d + (((w :: ws).filter F).map D).sum
                from ⟨by simp, hsum⟩),
              if_pos (show t :: w :: ws ≠ [] ∧ 0 < s + d + (((w :: ws).filter F).map D).sum
                from ⟨by simp, hsum⟩)]
          · rw [if_neg (show ¬(w :: ws ≠ [] ∧ 0 < s + d +
                  (((w :: ws).filter F).map D).sum) from fun hc => hsum hc.2),
              if_neg (show ¬(0 < s + d) from by omega),
              if_neg (show ¬(t :: w :: ws ≠ [] ∧ 0 < s + d +
                  (((w :: ws).filter F).map D).sum) from fun hc => hsum hc.2)]

/-- The closed form of a node's closeness dictionary entry: with `S` the
distance sum over the maximal reachable prefix of the node order, the
entry is `c / S` when `S > 0` and absent otherwise. -/
lemma closenessEntry_eq (G : Graph) (normalized : Bool) (u : Nat) :
    closenessEntry G normalized u =
      if 0 < closeSum G u then
        some ((if normalized then ((G.nodes.length - 1 : Nat) : ℚ) else 1) /
          (closeSum G u : ℚ))
      else none := by
  unfold closenessEntry closeSum reachPrefix
  rw [closeness_fold]
  by_cases h : 0 < (((G.nodes.takeWhile (fun t => t == u ||
      (shortestPathLen G u t).isSome)).filter (fun t => !(t == u))).map
      (fun t => (shortestPathLen G u t).getD 0)).sum
  · have hne : G.nodes.takeWhile (fun t => t == u ||
        (shortestPathLen G u t).isSome) ≠ [] := by
      intro hc
      rw [hc] at h
      simp at h
    rw [if_pos ⟨hne, by omega⟩, if_pos h]
    norm_num
  · rw [if_neg (by omega), if_neg h]

lemma lookup_filterMap_none {f : Nat → Option ℚ} :
    ∀ {l : List Nat} {u : Nat}, u ∉ l →
      (l.filterMap (fun x => (f x).map (fun q => (x, q)))).lookup u = none := by
  intro l
  induction l with
  | nil => intro u _; rfl
  | cons x l ih =>
    intro u hu
    rw [List.filterMap_cons]
    have hux : u ≠ x := fun hc => hu (hc ▸ List.mem_cons_self x l)
    rcases hfx : f x with _ | qx
    · exact ih (fun hc => hu (List.mem_cons_of_mem x hc))
    · rw [Option.map_some']
      rw [List.lookup_cons]
      rw [show (u == x) = false from beq_eq_false_iff_ne.mpr hux]
      exact ih (fun hc => hu (List.mem_cons_of_mem x hc))

/-- The returned dictionary holds exactly the nodes whose entry is
assigned, each with its entry. -/
lemma closeness_lookup_eq {G : Graph} (normalized : Bool) {u : Nat} (hu : u ∈ G.nodes) :
    (compute_closeness_centrality G normalized).lookup u = closenessEntry G normalized u := by
  unfold compute_closeness_centrality
  set f := fun x => closenessEntry G normalized x with hf
  have haux : ∀ (l : List Nat), u ∈ l →
      (l.filterMap (fun x => (f x).map (fun q => (x, q)))).lookup u = f u := by
    intro l
    induction l with
    | nil => intro h; cases h
    | cons x l ih =>
      intro hul
      rw [List.filterMap_cons]
      by_cases hux : u = x
      · subst hux
        rcases hfx : f u with _ | qx
        · by_cases hul' : u ∈ l
          · exact (ih hul').trans hfx
          · exact lookup_filterMap_none hul'
        · rw [Option.map_some', List.lookup_cons]
          simp
      · rcases hfx : f x with _ | qx
        · rcases List.mem_cons.mp hul with h | h
          · exact absurd h hux
          · exact ih h
        · rw [Option.map_some', List.lookup_cons]
          rw [show (u == x) = false from beq_eq_false_iff_ne.mpr hux]
          rcases List.mem_cons.mp hul with h | h
          · exact absurd h hux
          · exact ih h
  exact haux G.nodes hu

lemma length_ge_two_of_two_mem {l : List Nat} {a b : Nat} (ha : a ∈ l) (hb : b ∈ l)
    (hab : a ≠ b) : 2 ≤ l.length := by
  rcases l with _ | ⟨x, l'⟩
  · cases ha
  · rcases l' with _ | ⟨y, l''⟩
    · rcases List.mem_singleton.mp ha with rfl
      rcases List.mem_singleton.mp hb with rfl
      exact absurd rfl hab
    · simp [List.length_cons]

lemma closeSum_pos_two_nodes {G : Graph} {u : Nat} (hu : u ∈ G.nodes)
    (h : 0 < closeSum G u) : 2 ≤ G.nodes.length := by
  unfold closeSum at h
  have hex : ∃ t ∈ (reachPrefix G u).filter (fun t => !(t == u)),
      0 < (shortestPathLen G u t).getD 0 := by
    by_contra hc
    push_neg at hc
    have : (((reachPrefix G u).filter (fun t => !(t == u))).map
        (fun t => (shortestPathLen G u t).getD 0)).sum = 0 := by
      apply List.sum_eq_zero
      intro x hx
      rcases List.mem_map.mp hx with ⟨t, ht, rfl⟩
      have := hc t ht
      omega
    omega
  rcases hex with ⟨t, ht, _⟩
  rcases List.mem_filter.mp ht with ⟨htp, htne⟩
  have htu : t ≠ u := by
    intro hc
    rw [hc] at htne
    simp at htne
  have htmem : t ∈ G.nodes :=
    (List.takeWhile_sublist _).mem htp
  exact length_ge_two_of_two_mem htmem hu htu

lemma closeness_lookup_mem {G : Graph} {normalized : Bool} {u : Nat} {q : ℚ}
    (h : (compute_closeness_centrality G normalized).lookup u = some q) : u ∈ G.nodes := by
  by_contra hc
  rw [show compute_closeness_centrality G normalized =
    G.nodes.filterMap (fun x => (closenessEntry G normalized x).map (fun q => (x, q)))
    from rfl, lookup_filterMap_none hc] at h
  cases h

/-! ## Claim C10 -/

/-- C10: every value stored in the closeness mapping (both settings of
`normalized`) is a finite rational (assigned only under the
finite-and-positive sum guard) and strictly positive: never 0, negative,
or the stand-in for infinity. -/
theorem C10_closeness_values_positive (G : Graph) (normalized : Bool) (u : Nat) (q : ℚ)
    (h : (compute_closeness_centrality G normalized).lookup u = some q) : 0 < q := by
  have hu : u ∈ G.nodes := closeness_lookup_mem h
  rw [closeness_lookup_eq normalized hu, closenessEntry_eq] at h
  by_cases hS : 0 < closeSum G u
  · rw [if_pos hS] at h
    have hq : q = (if normalized then ((G.nodes.length - 1 : Nat) : ℚ) else 1) /
        (closeSum G u : ℚ) := (Option.some.injEq .. ▸ h).symm
    have hc : (0 : ℚ) < (if normalized then ((G.nodes.length - 1 : Nat) : ℚ) else 1) := by
      rcases normalized with _ | _
      · norm_num
      · have h2 := closeSum_pos_two_nodes hu hS
        rw [if_pos rfl]
        have : 1 ≤ G.nodes.length - 1 := by omega
        exact_mod_cast by omega
    have hSq : (0 : ℚ) < (closeSum G u : ℚ) := by exact_mod_cast hS
    rw [hq]
    exact div_pos hc hSq
  · rw [if_neg hS] at h
    cases h

/-- Witness for C10: in the graph with nodes 0,1,2 and single edge
{0,1}, node 0's (stale) entry is 2 and is positive. -/
theorem C10_closeness_values_positive_witness :
    (compute_closeness_centrality exG3 true).lookup 0 = some 2 ∧ (0 : ℚ) < 2 := by
  have h : (compute_closeness_centrality exG3 true).lookup 0 = some 2 := by
    rw [closeness_lookup_eq true (by decide), closenessEntry_eq,
      show closeSum exG3 0 = 1 from by decide]
    norm_num [exG3]
  exact ⟨h, C10_closeness_values_positive exG3 true 0 2 h⟩

/-! ## Claim C1 -/

/-- C1, the code evaluated at the failing input: in the graph with nodes
0,1,2 and the single edge {0,1}, node 0 has an unreachable target
(node 2), so by the claim its total distance sum is infinite and node 0
must be omitted from the mapping.  The code instead keeps the stale
entry assigned while the running sum was still finite — the
finite-positive check of q2.py line 86 sits inside the target loop — so
node 0 appears, with score `(3-1)/1 = 2` computed from the partial sum
over the targets preceding node 2. -/
theorem C1_stale_entry_despite_unreachable :
    (compute_closeness_centrality exG3 true).lookup 0 = some 2 ∧
      shortestPathLen exG3 0 2 = none := by
  constructor
  · rw [closeness_lookup_eq true (by decide), closenessEntry_eq,
      show closeSum exG3 0 = 1 from by decide]
    norm_num [exG3]
  · decide

/-! ## Claim C2 -/

/-- C2 counterexample: `exG5` and `exH3` give node 0 an identical
component ({0,1,2} with edges {0,1},{1,2}, the component's nodes
inserted in the same relative order), but the returned scores differ:
`1` when the second component {3,4} is present (node 3 sits between
nodes 1 and 2 in insertion order, so the running sum freezes after the
single distance d(0,1)=1), and `1/3` without it (the full
within-component sum 1+2).  A value returned for a node is therefore
influenced by the other component, and is not the closeness over the
node's own component. -/
theorem C2_cross_component_influence_counterexample :
    (compute_closeness_centrality exG5 false).lookup 0 = some 1 ∧
      (compute_closeness_centrality exH3 false).lookup 0 = some (1/3) ∧
      ((1 : ℚ) ≠ 1/3) := by
  refine ⟨?_, ?_, by norm_num⟩
  · rw [closeness_lookup_eq false (by decide), closenessEntry_eq,
      show closeSum exG5 0 = 1 from by decide]
    norm_num
  · rw [closeness_lookup_eq false (by decide), closenessEntry_eq,
      show closeSum exH3 0 = 3 from by decide]
    norm_num

/-! ## BFS soundness: every returned path is a duplicate-free walk
from the source to its key node -/

lemma hasEdge_of_mem_neighbors {G : Graph} {v w : Nat} (h : w ∈ neighbors G v) :
    hasEdge G v w = true := by
  rcases mem_neighbors.mp h with h | ⟨h, _⟩
  · exact hasEdge_iff.mpr ⟨(v, w), h, Or.inl rfl⟩
  · exact hasEdge_iff.mpr ⟨(w, v), h, Or.inr rfl⟩

lemma isWalk_append_one {G : Graph} :
    ∀ {p : List Nat} {v w : Nat}, IsWalk G p → p.getLast? = some v →
      hasEdge G v w = true →
      IsWalk G (p ++ [w]) ∧ (p ++ [w]).getLast? = some w ∧ (p ++ [w]).head? = p.head? := by
  intro p
  induction p with
  | nil => intro v w hw _ _; cases hw
  | cons a p ih =>
    intro v w hw hl he
    rcases p with _ | ⟨b, p'⟩
    · have hva : v = a := by
        simp only [List.getLast?_singleton] at hl
        exact (Option.some.injEq .. ▸ hl).symm
      subst hva
      exact ⟨⟨he, trivial⟩, rfl, rfl⟩
    · have hw' : hasEdge G a b = true ∧ IsWalk G (b :: p') := hw
      have hl' : (b :: p').getLast? = some v := by
        rw [List.getLast?_cons_cons] at hl
        exact hl
      have := ih hw'.2 hl' he
      refine ⟨⟨hw'.1, this.1⟩, ?_, rfl⟩
      show ((a :: b :: p') ++ [w]).getLast? = some w
      rw [List.cons_append, List.cons_append, List.getLast?_cons_cons]
      exact this.2.1

lemma walk_singleton (G : Graph) (s : Nat) : IsWalk G [s] := trivial

lemma bfsExpandNbrs_visited_mono (pth : List Nat) :
    ∀ (ws visited : List Nat) (acc : List (Nat × List Nat)),
      visited ⊆ (bfsExpandNbrs pth ws visited acc).2 := by
  intro ws
  induction ws with
  | nil => intro visited acc; exact fun x h => h
  | cons w ws ih =>
    intro visited acc
    rw [bfsExpandNbrs]
    by_cases hw : w ∈ visited
    · rw [if_pos hw]
      exact ih visited acc
    · rw [if_neg hw]
      exact fun x h => ih (w :: visited) _ (List.mem_cons_of_mem w h)

lemma bfsExpandNbrs_mem (pth : List Nat) :
    ∀ (ws visited : List Nat) (acc : List (Nat × List Nat)) (vp : Nat × List Nat),
      vp ∈ (bfsExpandNbrs pth ws visited acc).1 →
      vp ∈ acc ∨ ∃ w, vp = (w, pth ++ [w]) ∧ w ∈ ws ∧ w ∉ visited ∧
        w ∈ (bfsExpandNbrs pth ws visited acc).2 := by
  intro ws
  induction ws with
  | nil => intro visited acc vp h; exact Or.inl h
  | cons w ws ih =>
    intro visited acc vp h
    rw [bfsExpandNbrs] at h ⊢
    by_cases hw : w ∈ visited
    · rw [if_pos hw] at h ⊢
      rcases ih visited acc vp h with h' | ⟨w', h1, h2, h3, h4⟩
      · exact Or.inl h'
      · exact Or.inr ⟨w', h1, List.mem_cons_of_mem w h2, h3, h4⟩
    · rw [if_neg hw] at h ⊢
      rcases ih (w :: visited) (acc ++ [(w, pth ++ [w])]) vp h with h' | ⟨w', h1, h2, h3, h4⟩
      · rcases List.mem_append.mp h' with h'' | h''
        · exact Or.inl h''
        · rcases List.mem_singleton.mp h''
          refine Or.inr ⟨w, rfl, List.mem_cons_self w ws, hw, ?_⟩
          exact bfsExpandNbrs_visited_mono pth ws (w :: visited) _ (List.mem_cons_self w _)
      · refine Or.inr ⟨w', h1, List.mem_cons_of_mem w h2,
          fun hc => h3 (List.mem_cons_of_mem w hc), h4⟩

lemma bfsLayer_visited_mono (G : Graph) :
    ∀ (fr : List (Nat × List Nat)) (visited : List Nat),
      visited ⊆ (bfsLayer G fr visited).2 := by
  intro fr
  induction fr with
  | nil => intro visited; exact fun x h => h
  | cons vp fr ih =>
    intro visited
    rcases vp with ⟨v, pth⟩
    rw [bfsLayer]
    exact fun x h => ih _ (bfsExpandNbrs_visited_mono pth (neighbors G v) visited [] h)

lemma bfsLayer_mem (G : Graph) :
    ∀ (fr : List (Nat × List Nat)) (visited : List Nat) (vp' : Nat × List Nat),
      vp' ∈ (bfsLayer G fr visited).1 →
      ∃ v pth, (v, pth) ∈ fr ∧ ∃ w, vp' = (w, pth ++ [w]) ∧ w ∈ neighbors G v ∧
        w ∉ visited ∧ w ∈ (bfsLayer G fr visited).2 := by
  intro fr
  induction fr with
  | nil => intro visited vp' h; cases h
  | cons vp fr ih =>
    intro visited vp' h
    rcases vp with ⟨v, pth⟩
    rw [bfsLayer] at h ⊢
    rcases List.mem_append.mp h with h' | h'
    · rcases bfsExpandNbrs_mem pth (neighbors G v) visited [] vp' h' with h'' | ⟨w, h1, h2, h3, h4⟩
      · cases h''
      · exact ⟨v, pth, List.mem_cons_self _ _, w, h1, h2, h3,
          bfsLayer_visited_mono G fr _ h4⟩
    · rcases ih _ vp' h' with ⟨v', pth', hfr, w, h1, h2, h3, h4⟩
      exact ⟨v', pth', List.mem_cons_of_mem _ hfr, w, h1, h2,
        fun hc => h3 (bfsExpandNbrs_visited_mono pth (neighbors G v) visited [] hc), h4⟩

lemma bfsAux_sound (G : Graph) (s : Nat) :
    ∀ (fuel : Nat) (fr : List (Nat × List Nat)) (visited : List Nat),
      (∀ vp ∈ fr, IsWalk G vp.2 ∧ vp.2.head? = some s ∧ vp.2.getLast? = some vp.1 ∧
        vp.2.Nodup ∧ (∀ x ∈ vp.2, x ∈ visited)) →
      ∀ vp ∈ bfsAux G fuel fr visited,
        IsWalk G vp.2 ∧ vp.2.head? = some s ∧ vp.2.getLast? = some vp.1 ∧ vp.2.Nodup := by
  intro fuel
  induction fuel with
  | zero =>
    intro fr visited h vp hvp
    have := h vp hvp
    exact ⟨this.1, this.2.1, this.2.2.1, this.2.2.2.1⟩
  | succ fuel ih =>
    intro fr visited h vp hvp
    rw [bfsAux] at hvp
    rcases List.mem_append.mp hvp with hvp' | hvp'
    · have := h vp hvp'
      exact ⟨this.1, this.2.1, this.2.2.1, this.2.2.2.1⟩
    · refine ih (bfsLayer G fr visited).1 (bfsLayer G fr visited).2 ?_ vp hvp'
      intro vp' hvp''
      rcases bfsLayer_mem G fr visited vp' hvp'' with ⟨v, pth, hfr, w, h1, h2, h3, h4⟩
      have hgood := h (v, pth) hfr
      have hone := isWalk_append_one hgood.1 hgood.2.2.1 (hasEdge_of_mem_neighbors h2)
      subst h1
      refine ⟨hone.1, ?_, hone.2.1, ?_, ?_⟩
      · rw [hone.2.2]
        exact hgood.2.1
      · rw [List.nodup_append]
        refine ⟨hgood.2.2.2.1, List.nodup_singleton w, ?_⟩
        rw [List.disjoint_singleton]
        intro hc
        exact h3 (hgood.2.2.2.2 w hc)
      · intro x hx
        rcases List.mem_append.mp hx with hx' | hx'
        · exact bfsLayer_visited_mono G fr visited (hgood.2.2.2.2 x hx')
        · rcases List.mem_singleton.mp hx'
          exact h4

/-- Soundness of the canonical shortest path: it is a duplicate-free
walk from `s` to `t`. -/
lemma shortestPath_sound {G : Graph} {s t : Nat} {pth : List Nat}
    (h : shortestPath G s t = some pth) :
    IsWalk G pth ∧ pth.head? = some s ∧ pth.getLast? = some t ∧ pth.Nodup := by
  unfold shortestPath at h
  rcases hfind : (bfsPaths G s).find? (fun vp => vp.1 == t) with _ | vp
  · rw [hfind] at h
    cases h
  · rw [hfind] at h
    have hmem : vp ∈ bfsPaths G s := List.mem_of_find?_eq_some hfind
    have hkey : vp.1 = t := by
      have := List.find?_some hfind
      simpa using this
    have hgood := bfsAux_sound G s G.nodes.length [(s, [s])] [s]
      (by
        intro vp' hvp'
        rcases List.mem_singleton.mp hvp'
        exact ⟨trivial, rfl, rfl, List.nodup_singleton s, by simp⟩)
      vp hmem
    have hp : vp.2 = pth := by
      rw [Option.map_some'] at h
      exact Option.some.inj h
    rw [← hp, ← hkey]
    exact hgood

/-- C2 amended: every score in the closeness mapping is a finite,
strictly positive rational of the form `c / S`, where `S` sums the
distances from the node `u` to the non-`u` targets of the maximal
prefix of the node order all of whose members are reachable from `u` —
hence every distance entering a returned value is a within-component
distance (each such target is joined to `u` by a walk).  The sum may
stop before covering `u`'s whole component (at the first cross-component
target in node order), so cross-component positions can still influence
the returned value, and component nodes occurring after such a target
are omitted. -/
theorem C2_closeness_within_component (G : Graph) (normalized : Bool) (u : Nat) (q : ℚ)
    (h : (compute_closeness_centrality G normalized).lookup u = some q) :
    0 < closeSum G u ∧
    q = (if normalized then ((G.nodes.length - 1 : Nat) : ℚ) else 1) / (closeSum G u : ℚ) ∧
    (∀ t ∈ reachPrefix G u, t ≠ u →
      ∃ pth, IsWalk G pth ∧ pth.head? = some u ∧ pth.getLast? = some t) := by
  have hu : u ∈ G.nodes := closeness_lookup_mem h
  rw [closeness_lookup_eq normalized hu, closenessEntry_eq] at h
  by_cases hS : 0 < closeSum G u
  · rw [if_pos hS] at h
    refine ⟨hS, (Option.some.inj h).symm, ?_⟩
    intro t ht htu
    have hpt := List.mem_takeWhile_imp ht
    have hsome : (shortestPathLen G u t).isSome = true := by
      rcases Bool.or_eq_true .. ▸ hpt with h' | h'
      · exact absurd (by simpa using h') htu
      · exact h'
    rcases hsp : shortestPath G u t with _ | pth
    · rw [show shortestPathLen G u t = (shortestPath G u t).map
        (fun pth => pth.length - 1) from rfl, hsp] at hsome
      cases hsome
    · have := shortestPath_sound hsp
      exact ⟨pth, this.1, this.2.1, this.2.2.1⟩
  · rw [if_neg hS] at h
    cases h

/-- Witness for the amended C2 at `exG5`, node 0. -/
theorem C2_closeness_within_component_witness :
    0 < closeSum exG5 0 ∧
    (1 : ℚ) = (if false then ((exG5.nodes.length - 1 : Nat) : ℚ) else 1) /
      (closeSum exG5 0 : ℚ) ∧
    (∀ t ∈ reachPrefix exG5 0, t ≠ 0 →
      ∃ pth, IsWalk exG5 pth ∧ pth.head? = some 0 ∧ pth.getLast? = some t) := by
  have h : (compute_closeness_centrality exG5 false).lookup 0 = some 1 := by
    rw [closeness_lookup_eq false (by decide), closenessEntry_eq,
      show closeSum exG5 0 = 1 from by decide]
    norm_num
  exact C2_closeness_within_component exG5 false 0 1 h

/-! ## Betweenness counting: the fold equals the pair count -/

lemma foldl_flatMap {α β γ : Type} (l : List α) (g : α → List β) (f : γ → β → γ)
    (init : γ) :
    (l.flatMap g).foldl f init = l.foldl (fun acc a => (g a).foldl f acc) init := by
  induction l generalizing init with
  | nil => rfl
  | cons a l ih =>
    rw [List.flatMap_cons, List.foldl_append, List.foldl_cons, ih]

lemma betweennessCounts_eq_foldl_pairs (G : Graph) :
    betweennessCounts G =
      (orderedPairs G).foldl (processPair G) (G.nodes.map (fun v => (v, 0))) := by
  unfold betweennessCounts orderedPairs
  rw [foldl_flatMap]
  simp only [List.foldl_map]

lemma incrCounter_lookup (v x : Nat) :
    ∀ (d : List (Nat × Nat)),
      (incrCounter d v).lookup x =
        if x = v then (d.lookup x).map (fun c => c + 1) else d.lookup x := by
  intro d
  induction d with
  | nil => by_cases hxv : x = v <;> simp [incrCounter, hxv]
  | cons kc d ih =>
    rcases kc with ⟨k, c⟩
    unfold incrCounter at ih ⊢
    rw [List.map_cons]
    by_cases hkv : k = v
    · rw [if_pos (show (k, c).1 = v from hkv)]
      by_cases hxk : x = k
      · rw [show x = k from hxk, hkv]
        simp [List.lookup_cons]
      · have hbeq : (x == k) = false := beq_eq_false_iff_ne.mpr hxk
        by_cases hxv : x = v
        · exact absurd (hxv.trans hkv.symm) hxk
        · simp only [List.lookup_cons, hbeq]
          rw [if_neg hxv] at ih
          rw [ih, if_neg hxv]
    · rw [if_neg (show ¬ (k, c).1 = v from hkv)]
      by_cases hxk : x = k
      · rw [show x = k from hxk]
        have hxv : ¬ x = v := fun hc => hkv ((hxk.symm.trans hc))
        simp only [List.lookup_cons, beq_self_eq_true, if_neg hxv]
        rw [if_neg hkv]
      · have hbeq : (x == k) = false := beq_eq_false_iff_ne.mpr hxk
        simp only [List.lookup_cons, hbeq]
        exact ih

lemma foldl_incr_lookup (v : Nat) :
    ∀ (ws : List Nat) (d : List (Nat × Nat)),
      ((ws.foldl incrCounter d).lookup v) =
        (d.lookup v).map (fun c => c + ws.count v) := by
  intro ws
  induction ws with
  | nil =>
    intro d
    simp
  | cons w ws ih =>
    intro d
    rw [List.foldl_cons, ih, incrCounter_lookup]
    by_cases hvw : v = w
    · rw [if_pos hvw, Option.map_map]
      have hcnt : (w :: ws).count v = ws.count v + 1 := by
        rw [List.count_cons]
        simp [hvw]
      rw [hcnt]
      congr 1
      funext c
      simp [Function.comp]
      omega
    · rw [if_neg hvw]
      have hcnt : (w :: ws).count v = ws.count v := by
        rw [List.count_cons]
        simp [Ne.symm hvw, beq_eq_false_iff_ne.mpr (Ne.symm hvw)]
      rw [hcnt]

lemma processPair_lookup (G : Graph) (v : Nat) (d : List (Nat × Nat)) (st : Nat × Nat) :
    (processPair G d st).lookup v = (d.lookup v).map (fun c => c + pairContrib G v st) := by
  unfold processPair pairContrib
  by_cases h : st.1 ≠ st.2
  · rw [if_pos h, if_pos h]
    rcases hsp : shortestPath G st.1 st.2 with _ | pth
    · simp
    · exact foldl_incr_lookup v (interior pth) d
  · rw [if_neg h, if_neg h]
    simp

lemma foldl_processPair_lookup (G : Graph) (v : Nat) :
    ∀ (ps : List (Nat × Nat)) (d : List (Nat × Nat)),
      ((ps.foldl (processPair G) d).lookup v) =
        (d.lookup v).map (fun c => c + (ps.map (pairContrib G v)).sum) := by
  intro ps
  induction ps with
  | nil =>
    intro d
    simp
  | cons st ps ih =>
    intro d
    rw [List.foldl_cons, ih, processPair_lookup, Option.map_map, List.map_cons,
      List.sum_cons]
    congr 1
    funext c
    simp [Function.comp]
    omega

lemma count_interior_eq (v : Nat) {pth : List Nat} (hnd : pth.Nodup) :
    (interior pth).count v = if v ∈ interior pth then 1 else 0 := by
  have hnd' : (interior pth).Nodup := by
    unfold interior
    exact ((pth.drop 1).dropLast_sublist.trans (pth.drop_sublist 1)).nodup hnd
  by_cases hv : v ∈ interior pth
  · rw [if_pos hv]
    exact List.count_eq_one_of_mem hnd' hv
  · rw [if_neg hv]
    exact List.count_eq_zero_of_not_mem hv

lemma sum_map_indicator_countP {α : Type} (l : List α) (p : α → Bool) :
    (l.map (fun a => if p a then (1 : Nat) else 0)).sum = l.countP p := by
  induction l with
  | nil => simp
  | cons x l ih =>
    rcases h : p x with _ | _ <;> simp [List.countP_cons, h, ih, Nat.add_comm]

lemma pairContrib_eq_indicator (G : Graph) (v : Nat) (st : Nat × Nat) :
    pairContrib G v st =
      if (decide (st.1 ≠ st.2) &&
          (match shortestPath G st.1 st.2 with
           | some pth => decide (v ∈ interior pth)
           | none => false)) then 1 else 0 := by
  unfold pairContrib
  by_cases h : st.1 ≠ st.2
  · rcases hsp : shortestPath G st.1 st.2 with _ | pth
    · simp [h, hsp]
    · have hnd := (shortestPath_sound hsp).2.2.2
      rw [if_pos h]
      dsimp only
      rw [count_interior_eq v hnd]
      by_cases hv : v ∈ interior pth <;> simp [h, hv]
  · simp [h]

lemma betweennessCounts_lookup (G : Graph) {v : Nat} (hv : v ∈ G.nodes) :
    (betweennessCounts G).lookup v = some (betweennessSpecCount G v) := by
  rw [betweennessCounts_eq_foldl_pairs, foldl_processPair_lookup,
    lookup_map_self (fun _ => (0 : Nat)) hv, Option.map_some']
  congr 1
  rw [Nat.zero_add]
  unfold betweennessSpecCount
  rw [List.map_congr_left (fun st _ => pairContrib_eq_indicator G v st)]
  exact sum_map_indicator_countP _ _

/-! ## BFS completeness and shortestness machinery -/

lemma bfsExpandNbrs_acc_sub (pth : List Nat) :
    ∀ (ws visited : List Nat) (acc : List (Nat × List Nat)),
      acc ⊆ (bfsExpandNbrs pth ws visited acc).1 := by
  intro ws
  induction ws with
  | nil => intro visited acc; exact fun vp h => h
  | cons w ws ih =>
    intro visited acc
    rw [bfsExpandNbrs]
    by_cases hw : w ∈ visited
    · rw [if_pos hw]
      exact ih visited acc
    · rw [if_neg hw]
      exact fun vp h => ih _ _ (List.mem_append.mpr (Or.inl h))

lemma bfsExpandNbrs_covers (pth : List Nat) :
    ∀ (ws visited : List Nat) (acc : List (Nat × List Nat)) (w : Nat), w ∈ ws →
      w ∈ (bfsExpandNbrs pth ws visited acc).2 := by
  intro ws
  induction ws with
  | nil => intro visited acc w h; cases h
  | cons w' ws ih =>
    intro visited acc w hw
    rw [bfsExpandNbrs]
    by_cases hw' : w' ∈ visited
    · rw [if_pos hw']
      rcases List.mem_cons.mp hw with rfl | hmem
      · exact bfsExpandNbrs_visited_mono pth ws visited acc hw'
      · exact ih visited acc w hmem
    · rw [if_neg hw']
      rcases List.mem_cons.mp hw with rfl | hmem
      · exact bfsExpandNbrs_visited_mono pth ws _ _ (List.mem_cons_self w _)
      · exact ih _ _ w hmem

lemma bfsExpandNbrs_visited_mem (pth : List Nat) :
    ∀ (ws visited : List Nat) (acc : List (Nat × List Nat)) (x : Nat),
      x ∈ (bfsExpandNbrs pth ws visited acc).2 →
      x ∈ visited ∨ ∃ p, (x, p) ∈ (bfsExpandNbrs pth ws visited acc).1 := by
  intro ws
  induction ws with
  | nil => intro visited acc x h; exact Or.inl h
  | cons w ws ih =>
    intro visited acc x h
    rw [bfsExpandNbrs] at h ⊢
    by_cases hw : w ∈ visited
    · rw [if_pos hw] at h ⊢
      exact ih visited acc x h
    · rw [if_neg hw] at h ⊢
      rcases ih _ _ x h with h' | h'
      · rcases List.mem_cons.mp h' with rfl | h''
        · right
          refine ⟨pth ++ [x], bfsExpandNbrs_acc_sub pth ws _ _ ?_⟩
          exact List.mem_append.mpr (Or.inr (List.mem_singleton.mpr rfl))
        · exact Or.inl h''
      · exact Or.inr h'

lemma bfsLayer_covers (G : Graph) :
    ∀ (fr : List (Nat × List Nat)) (visited : List Nat) (v : Nat) (pth : List Nat),
      (v, pth) ∈ fr → ∀ w ∈ neighbors G v, w ∈ (bfsLayer G fr visited).2 := by
  intro fr
  induction fr with
  | nil => intro visited v pth h; cases h
  | cons vp fr ih =>
    intro visited v pth hmem w hw
    rcases vp with ⟨v', pth'⟩
    rw [bfsLayer]
    rcases List.mem_cons.mp hmem with heq | hmem'
    · rcases Prod.mk.injEq .. ▸ heq with ⟨rfl, rfl⟩
      exact bfsLayer_visited_mono G fr _
        (bfsExpandNbrs_covers pth (neighbors G v) visited [] w hw)
    · exact ih _ v pth hmem' w hw

lemma bfsLayer_visited_mem (G : Graph) :
    ∀ (fr : List (Nat × List Nat)) (visited : List Nat) (x : Nat),
      x ∈ (bfsLayer G fr visited).2 →
      x ∈ visited ∨ ∃ p, (x, p) ∈ (bfsLayer G fr visited).1 := by
  intro fr
  induction fr with
  | nil => intro visited x h; exact Or.inl h
  | cons vp fr ih =>
    intro visited x h
    rcases vp with ⟨v, pth⟩
    rw [bfsLayer] at h ⊢
    rcases ih _ x h with h' | ⟨p, hp⟩
    · rcases bfsExpandNbrs_visited_mem pth (neighbors G v) visited [] x h' with h'' | ⟨p, hp⟩
      · exact Or.inl h''
      · exact Or.inr ⟨p, List.mem_append.mpr (Or.inl hp)⟩
    · exact Or.inr ⟨p, List.mem_append.mpr (Or.inr hp)⟩

lemma closedInv_step_visited (G : Graph) {fr : List (Nat × List Nat)} {visited : List Nat}
    (hc : ClosedInv G visited fr) :
    ∀ x ∈ visited, ∀ w ∈ neighbors G x, w ∈ (bfsLayer G fr visited).2 := by
  intro x hx w hw
  rcases hc x hx with ⟨pth, hfr⟩ | hcl
  · exact bfsLayer_covers G fr visited x pth hfr w hw
  · exact bfsLayer_visited_mono G fr visited (hcl w hw)

lemma closedInv_step (G : Graph) {fr : List (Nat × List Nat)} {visited : List Nat}
    (hc : ClosedInv G visited fr) :
    ClosedInv G (bfsLayer G fr visited).2 (bfsLayer G fr visited).1 := by
  intro v hv
  rcases bfsLayer_visited_mem G fr visited v hv with hvis | ⟨p, hp⟩
  · right
    intro w hw
    exact closedInv_step_visited G hc v hvis w hw
  · exact Or.inl ⟨p, hp⟩

lemma walk_ne_nil {G : Graph} {q : List Nat} (h : IsWalk G q) : q ≠ [] := by
  intro hc
  rw [hc] at h
  exact h

lemma isWalk_suffix {G : Graph} :
    ∀ (u v : List Nat), IsWalk G (u ++ v) → v ≠ [] → IsWalk G v := by
  intro u
  induction u with
  | nil => intro v h _; exact h
  | cons a u ih =>
    intro v h hv
    rw [List.cons_append] at h
    have huv : u ++ v ≠ [] := by
      intro hc
      rcases List.append_eq_nil.mp hc with ⟨_, hv'⟩
      exact hv hv'
    have h' : IsWalk G (u ++ v) := by
      rcases hu : u ++ v with _ | ⟨b, r⟩
      · exact absurd hu huv
      · rw [hu] at h
        have h2 : hasEdge G a b = true ∧ IsWalk G (b :: r) := h
        exact h2.2
    exact ih v h' hv

lemma isWalk_prefix {G : Graph} :
    ∀ (u v : List Nat), IsWalk G (u ++ v) → u ≠ [] → IsWalk G u := by
  intro u
  induction u with
  | nil => intro v _ hc; exact absurd rfl hc
  | cons a u ih =>
    intro v h _
    rcases hu : u with _ | ⟨b, u'⟩
    · trivial
    · subst hu
      rw [List.cons_append, List.cons_append] at h
      have h2 : hasEdge G a b = true ∧ IsWalk G (b :: (u' ++ v)) := h
      have hrest := ih v (by rw [List.cons_append]; exact h2.2) (by simp)
      exact ⟨h2.1, hrest⟩

lemma isWalk_join {G : Graph} :
    ∀ (u : List Nat) (x : Nat) (v : List Nat),
      IsWalk G (u ++ [x]) → IsWalk G (x :: v) → IsWalk G (u ++ x :: v) := by
  intro u
  induction u with
  | nil => intro x v _ h2; exact h2
  | cons a u ih =>
    intro x v h1 h2
    rcases hu : u with _ | ⟨b, u'⟩
    · subst hu
      have h1' : hasEdge G a x = true ∧ IsWalk G [x] := h1
      exact ⟨h1'.1, h2⟩
    · subst hu
      rw [List.cons_append, List.cons_append] at h1
      have h1' : hasEdge G a b = true ∧ IsWalk G (b :: (u' ++ [x])) := h1
      have hrest := ih x v (by rw [List.cons_append]; exact h1'.2) h2
      rw [List.cons_append, List.cons_append]
      refine ⟨h1'.1, ?_⟩
      rw [← List.cons_append]
      exact hrest

lemma getLast?_append_cons :
    ∀ (u : List Nat) (x : Nat) (v : List Nat),
      (u ++ x :: v).getLast? = (x :: v).getLast? := by
  intro u
  induction u with
  | nil => intro x v; rfl
  | cons a u ih =>
    intro x v
    rw [List.cons_append]
    rcases hu : u ++ x :: v with _ | ⟨b, r⟩
    · exact absurd hu (by simp)
    · rw [List.getLast?_cons_cons, ← hu, ih]

lemma head?_append_cons (u : List Nat) (x : Nat) (v w : List Nat) :
    (u ++ x :: v).head? = (u ++ x :: w).head? := by
  rcases u with _ | ⟨a, u'⟩ <;> rfl

lemma exists_dup_split {l : List Nat} (h : ¬ l.Nodup) :
    ∃ a x b c, l = a ++ x :: (b ++ x :: c) := by
  induction l with
  | nil => exact absurd List.nodup_nil h
  | cons y l ih =>
    by_cases hy : y ∈ l
    · rcases List.append_of_mem hy with ⟨b, c, rfl⟩
      exact ⟨[], y, b, c, rfl⟩
    · have h' : ¬ l.Nodup := fun hn => h (List.nodup_cons.mpr ⟨hy, hn⟩)
      rcases ih h' with ⟨a, x, b, c, rfl⟩
      exact ⟨y :: a, x, b, c, rfl⟩

lemma walkFrom_dedup_step {G : Graph} {s t : Nat} {a b c : List Nat} {x : Nat}
    (h : WalkFrom G s t (a ++ x :: (b ++ x :: c))) :
    WalkFrom G s t (a ++ x :: c) := by
  obtain ⟨hw, hh, hl⟩ := h
  refine ⟨?_, ?_, ?_⟩
  · have hpre : IsWalk G (a ++ [x]) := by
      have hall : IsWalk G ((a ++ [x]) ++ (b ++ x :: c)) := by
        rw [List.append_assoc]
        simpa using hw
      exact isWalk_prefix _ _ hall (by simp)
    have hsuf : IsWalk G (x :: c) := by
      have hall : IsWalk G ((a ++ x :: b) ++ (x :: c)) := by
        rw [List.append_assoc]
        simpa using hw
      exact isWalk_suffix _ _ hall (by simp)
    exact isWalk_join a x c hpre hsuf
  · rw [head?_append_cons a x c (b ++ x :: c)]
    exact hh
  · rw [getLast?_append_cons a x c]
    rw [getLast?_append_cons a x (b ++ x :: c)] at hl
    rw [show x :: (b ++ x :: c) = (x :: b) ++ x :: c from by simp] at hl
    rw [getLast?_append_cons (x :: b) x c] at hl
    exact hl

lemma exists_nodup_walk {G : Graph} :
    ∀ (n : Nat) (q : List Nat) (s t : Nat), q.length ≤ n → WalkFrom G s t q →
      ∃ q2, WalkFrom G s t q2 ∧ q2.Nodup ∧ q2.length ≤ q.length := by
  intro n
  induction n with
  | zero =>
    intro q s t hlen hq
    have hne := walk_ne_nil hq.1
    rcases q with _ | _
    · exact absurd rfl hne
    · simp at hlen
  | succ n ih =>
    intro q s t hlen hq
    by_cases hnd : q.Nodup
    · exact ⟨q, hq, hnd, le_rfl⟩
    · rcases exists_dup_split hnd with ⟨a, x, b, c, rfl⟩
      have hq' := walkFrom_dedup_step hq
      have hlt : (a ++ x :: c).length < (a ++ x :: (b ++ x :: c)).length := by
        simp only [List.length_append, List.length_cons]
        omega
      rcases ih (a ++ x :: c) s t (by omega) hq' with ⟨q2, h1, h2, h3⟩
      exact ⟨q2, h1, h2, by omega⟩

lemma walk_mem_nodes {G : Graph} (hwf : WF G) :
    ∀ (q : List Nat) (s : Nat), IsWalk G q → q.head? = some s → s ∈ G.nodes →
      ∀ x ∈ q, x ∈ G.nodes := by
  intro q
  induction q with
  | nil => intro s _ hh; cases hh
  | cons a q ih =>
    intro s hw hh hs x hx
    have has : a = s := Option.some.inj hh
    rcases q with _ | ⟨b, q'⟩
    · rcases List.mem_singleton.mp hx with rfl
      exact has ▸ hs
    · have h2 : hasEdge G a b = true ∧ IsWalk G (b :: q') := hw
      have hb : b ∈ G.nodes := (hasEdge_endpoints hwf h2.1).2.1
      rcases List.mem_cons.mp hx with rfl | hx'
      · exact has ▸ hs
      · exact ih b h2.2 rfl hb x hx'

lemma mem_neighbors_of_hasEdge {G : Graph} {x t : Nat} (h : hasEdge G x t = true)
    (hne : t ≠ x) : t ∈ neighbors G x := by
  rcases hasEdge_iff.mp h with ⟨r, hr, hs⟩
  rcases hs with hs | hs
  · exact mem_neighbors.mpr (Or.inl (hs ▸ hr))
  · have hrtx : r = (t, x) := by
      rcases r with ⟨p, q⟩
      rcases Prod.mk.injEq .. ▸ hs with ⟨h1, h2⟩
      simp [h1, h2]
    exact mem_neighbors.mpr (Or.inr ⟨hrtx ▸ hr, hne⟩)

lemma walk_split_last {G : Graph} {t : Nat} :
    ∀ (q : List Nat) (s : Nat), WalkFrom G s t q → 2 ≤ q.length →
      ∃ x q2, WalkFrom G s x q2 ∧ hasEdge G x t = true ∧ q2.length + 1 = q.length := by
  intro q
  induction q with
  | nil => intro s _ hlen; simp at hlen
  | cons a q ih =>
    intro s h hlen
    obtain ⟨hw, hh, hl⟩ := h
    have has : a = s := Option.some.inj hh
    subst has
    rcases q with _ | ⟨b, q'⟩
    · simp at hlen
    · have h2 : hasEdge G a b = true ∧ IsWalk G (b :: q') := hw
      rcases q' with _ | ⟨r, q''⟩
      · have hbt : b = t := by
          rw [List.getLast?_cons_cons, List.getLast?_singleton] at hl
          exact Option.some.inj hl
        exact ⟨a, [a], ⟨trivial, rfl, rfl⟩, hbt ▸ h2.1, rfl⟩
      · have hsub : WalkFrom G b t (b :: r :: q'') := by
          refine ⟨h2.2, rfl, ?_⟩
          rw [List.getLast?_cons_cons] at hl
          exact hl
        rcases ih b hsub (by simp) with ⟨x, q2, hq2, he, hlen2⟩
        obtain ⟨hw2, hh2, hl2⟩ := hq2
        rcases q2 with _ | ⟨b', rest⟩
        · cases hh2
        · have hb' : b' = b := Option.some.inj hh2
          refine ⟨x, a :: b' :: rest,
            ⟨⟨show hasEdge G a b' = true from by rw [hb']; exact h2.1, hw2⟩, rfl, ?_⟩, he, ?_⟩
          · rw [List.getLast?_cons_cons]
            exact hl2
          · simp at hlen2 ⊢
            omega

lemma barrier_step (G : Graph) {s : Nat} {fr : List (Nat × List Nat)} {visited : List Nat}
    (hc : ClosedInv G visited fr) {L : Nat} (hL : 1 ≤ L)
    (hb : ∀ t q, WalkFrom G s t q → q.length ≤ L → t ∈ visited) :
    ∀ t q, WalkFrom G s t q → q.length ≤ L + 1 → t ∈ (bfsLayer G fr visited).2 := by
  intro t q hq hlen
  by_cases hle : q.length ≤ L
  · exact bfsLayer_visited_mono G fr visited (hb t q hq hle)
  · have hge2 : 2 ≤ q.length := by omega
    rcases walk_split_last q s hq hge2 with ⟨x, q2, hq2, he, hlen2⟩
    have hx : x ∈ visited := hb x q2 hq2 (by omega)
    by_cases htx : t = x
    · exact bfsLayer_visited_mono G fr visited (htx ▸ hx)
    · exact closedInv_step_visited G hc x hx t (mem_neighbors_of_hasEdge he htx)

lemma bfsAux_frontier_mem (G : Graph) :
    ∀ (fuel : Nat) (fr : List (Nat × List Nat)) (visited : List Nat) (vp : Nat × List Nat),
      vp ∈ fr → vp ∈ bfsAux G fuel fr visited := by
  intro fuel fr visited vp h
  cases fuel with
  | zero => exact h
  | succ fuel =>
    rw [bfsAux]
    exact List.mem_append.mpr (Or.inl h)

lemma lookup_map_value {l : List (Nat × Nat)} (f : Nat → ℚ) (v : Nat) :
    ((l.map (fun vc => (vc.1, f vc.2))).lookup v) = (l.lookup v).map f := by
  induction l with
  | nil => rfl
  | cons kc l ih =>
    rcases kc with ⟨k, c⟩
    rw [List.map_cons, List.lookup_cons, List.lookup_cons]
    by_cases hvk : v = k
    · have hbeq : (v == k) = true := beq_iff_eq.mpr hvk
      rw [hbeq]
      rfl
    · have hbeq : (v == k) = false := beq_eq_false_iff_ne.mpr hvk
      rw [hbeq]
      exact ih

lemma bfsAux_complete (G : Graph) (s : Nat) :
    ∀ (fuel L : Nat) (fr : List (Nat × List Nat)) (visited : List Nat),
      1 ≤ L →
      ClosedInv G visited fr →
      (∀ t q, WalkFrom G s t q → q.length ≤ L → t ∈ visited) →
      ∀ t q, WalkFrom G s t q → q.length ≤ L + fuel →
        t ∈ visited ∨ ∃ pth, (t, pth) ∈ bfsAux G fuel fr visited := by
  intro fuel
  induction fuel with
  | zero =>
    intro L fr visited hL hc hb t q hq hlen
    exact Or.inl (hb t q hq hlen)
  | succ fuel ih =>
    intro L fr visited hL hc hb t q hq hlen
    have hrec := ih (L + 1) (bfsLayer G fr visited).1 (bfsLayer G fr visited).2
      (by omega) (closedInv_step G hc) (barrier_step G hc hL hb) t q hq (by omega)
    rw [bfsAux]
    rcases hrec with hvis | ⟨pth, hp⟩
    · rcases bfsLayer_visited_mem G fr visited t hvis with hvis' | ⟨p, hp⟩
      · exact Or.inl hvis'
      · exact Or.inr ⟨p, List.mem_append.mpr (Or.inr (bfsAux_frontier_mem G fuel _ _ _ hp))⟩
    · exact Or.inr ⟨pth, List.mem_append.mpr (Or.inr hp)⟩

lemma bfsAux_minimal (G : Graph) (s : Nat) :
    ∀ (fuel L : Nat) (fr : List (Nat × List Nat)) (visited : List Nat),
      1 ≤ L →
      ClosedInv G visited fr →
      (∀ t q, WalkFrom G s t q → q.length ≤ L → t ∈ visited) →
      (∀ vp ∈ fr, vp.2.length = L) →
      (∀ vp ∈ fr, ∀ q, WalkFrom G s vp.1 q → L ≤ q.length) →
      ∀ vp ∈ bfsAux G fuel fr visited, ∀ q, WalkFrom G s vp.1 q →
        vp.2.length ≤ q.length := by
  intro fuel
  induction fuel with
  | zero =>
    intro L fr visited hL hc hb hlen hmin vp hvp q hq
    have hvp' : vp ∈ fr := hvp
    rw [hlen vp hvp']
    exact hmin vp hvp' q hq
  | succ fuel ih =>
    intro L fr visited hL hc hb hlen hmin vp hvp q hq
    rw [bfsAux] at hvp
    rcases List.mem_append.mp hvp with hvp' | hvp'
    · rw [hlen vp hvp']
      exact hmin vp hvp' q hq
    · refine ih (L + 1) (bfsLayer G fr visited).1 (bfsLayer G fr visited).2
        (by omega) (closedInv_step G hc) (barrier_step G hc hL hb) ?_ ?_ vp hvp' q hq
      · intro vp' hvp''
        rcases bfsLayer_mem G fr visited vp' hvp'' with ⟨w0, pth, hfr, w, h1, h2, h3, h4⟩
        have hpl : pth.length = L := hlen (w0, pth) hfr
        subst h1
        simp [hpl]
      · intro vp' hvp'' q' hq'
        rcases bfsLayer_mem G fr visited vp' hvp'' with ⟨w0, pth, hfr, w, h1, h2, h3, h4⟩
        by_contra hcon
        push_neg at hcon
        have hle : q'.length ≤ L := by omega
        refine h3 ?_
        rw [h1] at hq'
        exact hb w q' hq' hle

/-- The starting state of `bfsPaths`: `s` is the one visited node and it is on
the frontier. -/
lemma start_closedInv (G : Graph) (s : Nat) : ClosedInv G [s] [(s, [s])] := by
  intro v hv
  rcases List.mem_singleton.mp hv with rfl
  exact Or.inl ⟨[v], List.mem_singleton.mpr rfl⟩

lemma start_barrier (G : Graph) (s : Nat) :
    ∀ t q, WalkFrom G s t q → q.length ≤ 1 → t ∈ [s] := by
  intro t q hq hlen
  obtain ⟨hw, hh, hl⟩ := hq
  rcases q with _ | ⟨a, q'⟩
  · cases hh
  · rcases q' with _ | _
    · have h1 : a = s := Option.some.inj hh
      have h2 : a = t := Option.some.inj hl
      rw [← h2, h1]
      exact List.mem_singleton.mpr rfl
    · simp at hlen

lemma start_len (G : Graph) (s : Nat) :
    ∀ vp ∈ ([(s, [s])] : List (Nat × List Nat)), vp.2.length = 1 := by
  intro vp hvp
  rcases List.mem_singleton.mp hvp with rfl
  rfl

lemma start_min (G : Graph) (s : Nat) :
    ∀ vp ∈ ([(s, [s])] : List (Nat × List Nat)),
      ∀ q, WalkFrom G s vp.1 q → 1 ≤ q.length := by
  intro vp hvp q hq
  have hne := walk_ne_nil hq.1
  rcases q with _ | _
  · exact absurd rfl hne
  · simp

/-- Minimality of the canonical path: it is at least as short as any walk of
the graph between its endpoints. -/
lemma shortestPath_minimal {G : Graph} {s t : Nat} {pth : List Nat}
    (h : shortestPath G s t = some pth) :
    ∀ q, WalkFrom G s t q → pth.length ≤ q.length := by
  intro q hq
  unfold shortestPath at h
  rcases hfind : (bfsPaths G s).find? (fun vp => vp.1 == t) with _ | vp
  · rw [hfind] at h
    cases h
  · rw [hfind, Option.map_some'] at h
    have hmem : vp ∈ bfsPaths G s := List.mem_of_find?_eq_some hfind
    have hkey : vp.1 = t := by simpa using List.find?_some hfind
    have hp : vp.2 = pth := Option.some.inj h
    rw [← hp]
    exact bfsAux_minimal G s G.nodes.length 1 [(s, [s])] [s] le_rfl
      (start_closedInv G s) (start_barrier G s) (start_len G s) (start_min G s)
      vp hmem q (by rw [hkey]; exact hq)

/-- Completeness of the canonical path: if any walk joins `s` to `t`, BFS with
fuel `|nodes|` discovers `t`. -/
lemma shortestPath_complete {G : Graph} (hwf : WF G) {s t : Nat} (hs : s ∈ G.nodes)
    {q : List Nat} (hq : WalkFrom G s t q) :
    (shortestPath G s t).isSome := by
  rcases exists_nodup_walk q.length q s t le_rfl hq with ⟨q2, hq2, hnd, hle⟩
  have hsub : ∀ x ∈ q2, x ∈ G.nodes :=
    walk_mem_nodes hwf q2 s hq2.1 hq2.2.1 hs
  have hlen : q2.length ≤ G.nodes.length :=
    List.Subperm.length_le (List.Nodup.subperm hnd hsub)
  have hcomp := bfsAux_complete G s G.nodes.length 1 [(s, [s])] [s] le_rfl
    (start_closedInv G s) (start_barrier G s) t q2 hq2 (by omega)
  have hmem : ∃ pth, (t, pth) ∈ bfsPaths G s := by
    rcases hcomp with hvis | hout
    · have ht : t = s := List.mem_singleton.mp hvis
      rw [ht]
      exact ⟨[s], bfsAux_frontier_mem G G.nodes.length _ _ _ (List.mem_singleton.mpr rfl)⟩
    · exact hout
  rcases hmem with ⟨pth, hpm⟩
  have hfind : ((bfsPaths G s).find? (fun vp => vp.1 == t)).isSome :=
    List.find?_isSome.mpr ⟨(t, pth), hpm, by simp⟩
  unfold shortestPath
  rcases hopt : (bfsPaths G s).find? (fun vp => vp.1 == t) with _ | vp
  · rw [hopt] at hfind
    simp at hfind
  · rw [hopt]
    rfl

/-- C6: for every well-formed graph, the unnormalized betweenness score of
each node `v` equals the number of ordered pairs of distinct nodes `(s, t)`
for which the canonical (first-discovered BFS) shortest path exists and has
`v` strictly between its endpoints — pairs with no canonical path (the
`KeyError` branch) contribute nothing, exactly as `betweennessSpecCount`
counts.  Moreover the canonical path is a genuine shortest path: it is a
duplicate-free walk from `s` to `t` no longer than any walk from `s` to `t`,
and a canonical path exists precisely when some walk connects the pair. -/
theorem C6_betweenness_single_path_counts (G : Graph) (hwf : WF G) (v : Nat)
    (hv : v ∈ G.nodes) :
    (compute_betweenness_centrality G false).lookup v =
      some ((betweennessSpecCount G v : ℚ)) ∧
    (∀ s t pth, shortestPath G s t = some pth →
      WalkFrom G s t pth ∧ pth.Nodup ∧
        ∀ q, WalkFrom G s t q → pth.length ≤ q.length) ∧
    (∀ s t, s ∈ G.nodes → ((∃ q, WalkFrom G s t q) ↔ (shortestPath G s t).isSome)) := by
  refine ⟨?_, ?_, ?_⟩
  · have h1 := lookup_map_value (l := betweennessCounts G) (fun c => (c : ℚ)) v
    have h2 : (betweennessCounts G).lookup v = some (betweennessSpecCount G v) :=
      betweennessCounts_lookup G hv
    unfold compute_betweenness_centrality
    rw [if_neg (show ¬((false : Bool) = true ∧ G.nodes.length > 2) from by simp)]
    exact h1.trans (by rw [h2, Option.map_some'])
  · intro s t pth hsp
    have hs := shortestPath_sound hsp
    exact ⟨⟨hs.1, hs.2.1, hs.2.2.1⟩, hs.2.2.2, shortestPath_minimal hsp⟩
  · intro s t hs
    constructor
    · rintro ⟨q, hq⟩
      exact shortestPath_complete hwf hs hq
    · intro hsome
      rcases hopt : shortestPath G s t with _ | pth
      · rw [hopt] at hsome
        simp at hsome
      · have hsnd := shortestPath_sound hopt
        exact ⟨pth, hsnd.1, hsnd.2.1, hsnd.2.2.1⟩

theorem C6_betweenness_single_path_counts_witness :
    WF exP5 ∧ 2 ∈ exP5.nodes ∧
    (compute_betweenness_centrality exP5 false).lookup 2 =
      some ((betweennessSpecCount exP5 2 : ℚ)) ∧
    betweennessSpecCount exP5 2 = 8 := by
  refine ⟨by decide, by decide, ?_, by decide⟩
  exact (C6_betweenness_single_path_counts exP5 (by decide) 2 (by decide)).1

end SNA
